import Mathlib

/-!
# Contextboard: verification of the collaborative whiteboard core

A shallow embedding of the contextboard client (`web/src/App.jsx`) and
realtime server (Express + `ws` source file) in Lean 4, together with proofs
of the testable properties stated in the specification.

Conventions used by the embedding:
* JavaScript numbers are modelled as real numbers (`ℝ`) where the code does
  geometry, and as integers (`ℤ`) where the code handles millisecond
  timestamps; integer labels are `ℤ`.
* `JSON.stringify`/`JSON.parse` round-trips exactly on board data (the spec
  requires exact serialization), so history entries store the value itself.
* A JavaScript `Set` built from an array preserves first-occurrence insertion
  order; this is `jsDedup` below, and `Set.add` is `insertUnique`.
* `Math.atan2 y x` is modelled as the complex argument of `x + y*I`, which
  agrees with `atan2` on every real input.
-/

namespace Contextboard

/-- JavaScript-`Set` style deduplication: keep the first occurrence of each
element, in insertion order (`Array.from(new Set(l))`). -/
def insertUnique (l : List String) (x : String) : List String :=
  if x ∈ l then l else l ++ [x]

/-- `Array.from(new Set(l))`: fold `insertUnique` over the list. -/
def jsDedup (l : List String) : List String :=
  l.foldl insertUnique []

/-- `Array.prototype.slice(-20)`: the last `n` elements of a list. -/
def takeLast (n : Nat) (l : List α) : List α :=
  l.drop (l.length - n)

/-- Optional media payload carried by a hexagon (`content` field):
a `{type, value}` record or `null`. -/
structure HexContent where
  ctype : String
  value : String
deriving DecidableEq

/-- A hexagon node of a board, as produced by `handleAddHexagon` in
`web/src/App.jsx`: string id, integer number label, world-space position,
display text, fill color, connected hexagon ids, optional content. -/
structure Hexagon where
  id : String
  number : ℤ
  x : ℝ
  y : ℝ
  text : String
  fillColor : String
  connections : List String
  content : Option HexContent

instance : Inhabited Hexagon :=
  ⟨{ id := "", number := 0, x := 0, y := 0, text := "", fillColor := "",
     connections := [], content := none }⟩

/-- A guest comment appended by the `POST /share/:token/comments` endpoint. -/
structure BoardComment where
  id : String
  text : String
  x : ℝ
  y : ℝ
  author : String
  createdAt : String

/-- Saved camera state (`buildViewportForSave`). -/
structure Viewport where
  centerX : ℝ
  centerY : ℝ
  panX : ℝ
  panY : ℝ
  zoom : ℝ

/-- The `data` payload of a board: hexagons, guest comments and the
last-saved viewport. -/
structure BoardData where
  hexagons : List Hexagon
  comments : List BoardComment
  viewport : Option Viewport

/-! ## History manager (`pushHistory` / `undo` / `redo`)

The client keeps two bounded stacks of serialized snapshots in
`historyRef`/`redoRef`; since serialization round-trips exactly, the stacks
are modelled as lists of states, newest at the end (`push`/`pop` act on the
array tail as in the source). The state type is a parameter: the operations
never inspect the snapshots. -/

structure HistoryState (α : Type u) where
  current : α
  undoStack : List α
  redoStack : List α

/-- `pushHistory(nextData)`: append the serialized current state to the undo
stack, keep the last 20 entries, clear the redo stack, adopt `nextData`. -/
def pushHistory (h : HistoryState α) (nextData : α) : HistoryState α :=
  { current := nextData
    undoStack := takeLast 20 (h.undoStack ++ [h.current])
    redoStack := [] }

/-- `undo()`: pop the newest undo entry; if none, do nothing; otherwise push
the current state's serialization onto the redo stack (cap 20) and adopt the
popped entry. -/
def undo (h : HistoryState α) : HistoryState α :=
  match h.undoStack.getLast? with
  | none => h
  | some prev =>
      { current := prev
        undoStack := h.undoStack.dropLast
        redoStack := takeLast 20 (h.redoStack ++ [h.current]) }

/-- `redo()`: symmetric inverse of `undo()`. -/
def redo (h : HistoryState α) : HistoryState α :=
  match h.redoStack.getLast? with
  | none => h
  | some next =>
      { current := next
        redoStack := h.redoStack.dropLast
        undoStack := takeLast 20 (h.undoStack ++ [h.current]) }

theorem getLast?_takeLast_append (l : List α) (a : α) :
    (takeLast 20 (l ++ [a])).getLast? = some a := by
  unfold takeLast
  rw [List.getLast?_drop, if_neg (by simp; omega)]
  simp

theorem length_takeLast (n : Nat) (l : List α) :
    (takeLast n l).length = min n l.length := by
  unfold takeLast
  simp [List.length_drop]
  omega

/-- C2. History round-trip: `undo()` right after `pushHistory(s')` restores
the pre-commit state; `redo()` right after that `undo()` restores the undone
state `s'`; a commit clears the redo stack, making `redo()` a no-op; both
stacks stay at ≤ 20 entries (the undo stack grows to `min (n+1) 20`), and
when the undo stack is full the oldest entry (its head) is dropped. -/
theorem history_round_trip {α : Type u} (h : HistoryState α) (s' : α) :
    (undo (pushHistory h s')).current = h.current ∧
    (redo (undo (pushHistory h s'))).current = s' ∧
    (pushHistory h s').redoStack = [] ∧
    redo (pushHistory h s') = pushHistory h s' ∧
    (pushHistory h s').undoStack.length = min (h.undoStack.length + 1) 20 ∧
    (h.undoStack.length ≤ 20 → h.redoStack.length ≤ 20 →
      (undo h).undoStack.length ≤ 20 ∧ (undo h).redoStack.length ≤ 20 ∧
      (redo h).undoStack.length ≤ 20 ∧ (redo h).redoStack.length ≤ 20) ∧
    (h.undoStack.length = 20 →
      (pushHistory h s').undoStack = h.undoStack.tail ++ [h.current]) := by
  refine ⟨?_, ?_, rfl, ?_, ?_, ?_, ?_⟩
  · simp [undo, pushHistory, getLast?_takeLast_append]
  · have h1 : undo (pushHistory h s') =
        { current := h.current
          undoStack := (takeLast 20 (h.undoStack ++ [h.current])).dropLast
          redoStack := takeLast 20 ([] ++ [s']) } := by
      unfold undo pushHistory
      rw [getLast?_takeLast_append]
    rw [h1]
    simp [redo, takeLast]
  · simp [redo, pushHistory]
  · have hlen := length_takeLast 20 (h.undoStack ++ [h.current])
    simp only [List.length_append, List.length_singleton] at hlen
    simp only [pushHistory, hlen]
    omega
  · intro hu hr
    refine ⟨?_, ?_, ?_, ?_⟩ <;>
      · first
        | (unfold undo
           cases h.undoStack.getLast? <;>
             simp [length_takeLast, List.length_dropLast] <;> omega)
        | (unfold redo
           cases h.redoStack.getLast? <;>
             simp [length_takeLast, List.length_dropLast] <;> omega)
  · intro h20
    simp only [pushHistory, takeLast, List.length_append, h20]
    rw [List.drop_append_of_le_length (by simp; omega)]
    congr 1
    cases hs : h.undoStack with
    | nil => simp [hs] at h20
    | cons a t => simp

/-- Witness for `history_round_trip` at a concrete full undo stack. -/
theorem history_round_trip_witness :
    (undo (pushHistory
        ({ current := 0, undoStack := List.replicate 20 7, redoStack := [] } :
          HistoryState ℕ) 1)).current = 0 ∧
    (undo ({ current := 0, undoStack := List.replicate 20 7, redoStack := [] } :
        HistoryState ℕ)).redoStack.length ≤ 20 ∧
    (pushHistory ({ current := 0, undoStack := List.replicate 20 7, redoStack := [] } :
        HistoryState ℕ) 1).undoStack = (List.replicate 20 7).tail ++ [0] := by
  obtain ⟨h1, -, -, -, -, hcap, hfull⟩ := history_round_trip
    ({ current := 0, undoStack := List.replicate 20 7, redoStack := [] } : HistoryState ℕ) 1
  exact ⟨h1, (hcap (by simp) (by simp)).2.1, hfull (by simp)⟩

/-! ## Realtime sync server (room broker)

From the Express + `ws` server source: room membership is a set of sockets
per board id; `broadcastToRoom` forwards a payload to every member whose
`readyState` is `OPEN`, skipping an optional sender socket; the per-socket
message handler relays `board_update` only when `isEditor(socket.accessRole)`
holds, and relays `presence` unconditionally. -/

/-- A wire message on the realtime channel. -/
inductive WireMsg where
  | boardUpdate (boardId : String) (data : BoardData) (sender : String)
  | presence (boardId : String) (sender : String) (cursorX cursorY : ℝ) (label : String)
  | presenceState (boardId : String) (users : List (String × String))
  | other

/-- A connected socket as the server sees it after the join handshake:
the fields the connection handler assigns on `socket`, plus the transport's
`readyState = OPEN` flag. -/
structure ServerSocket where
  connectionId : String
  boardId : String
  userId : String
  accessRole : String
  isOpen : Bool
deriving DecidableEq

/-- `isEditor(role)`: exactly the `owner` and `editor` roles may write. -/
def isEditor (role : String) : Bool :=
  role = "owner" || role = "editor"

/-- `broadcastToRoom(boardId, payload, skipSocket)`: deliver `payload` to
every member of the room except `skip`, provided the member's socket is
open. Sockets are identified by their `connectionId`. The result is the
list of (connectionId, message) deliveries. -/
def broadcastToRoom (room : List ServerSocket) (payload : WireMsg)
    (skip : Option String) : List (String × WireMsg) :=
  (room.filter (fun c => skip ≠ some c.connectionId && c.isOpen)).map
    (fun c => (c.connectionId, payload))

/-- The `socket.on("message")` handler: `board_update` is relayed (rebuilt
with the socket's own `boardId`) only if the sender's resolved role passes
`isEditor`; `presence` is relayed unconditionally; anything else is ignored.
The sender socket itself is always skipped. -/
def handleSocketMessage (room : List ServerSocket) (s : ServerSocket)
    (msg : WireMsg) : List (String × WireMsg) :=
  match msg with
  | WireMsg.boardUpdate _ data sender =>
      if isEditor s.accessRole then
        broadcastToRoom room (WireMsg.boardUpdate s.boardId data sender)
          (some s.connectionId)
      else []
  | WireMsg.presence _ sender cx cy label =>
      broadcastToRoom room (WireMsg.presence s.boardId sender cx cy label)
        (some s.connectionId)
  | _ => []

theorem broadcastToRoom_recipients (room : List ServerSocket) (payload : WireMsg)
    (skip : Option String) :
    (broadcastToRoom room payload skip).map Prod.fst =
      (room.filter (fun c => skip ≠ some c.connectionId && c.isOpen)).map
        (·.connectionId) := by
  simp [broadcastToRoom]

theorem inj_on_connectionId {room : List ServerSocket}
    (hids : (room.map (·.connectionId)).Nodup) :
    ∀ c ∈ room, ∀ s ∈ room, c.connectionId = s.connectionId → c = s := by
  intro c hc s hs hcs
  exact List.inj_on_of_nodup_map hids hc hs hcs

/-- C3. Role gating on the realtime server: in a room whose members are all
open and carry distinct connection ids, a `board_update` from a socket whose
resolved role is neither `owner` nor `editor` is relayed to nobody, while a
`board_update` from an `owner`/`editor` socket is relayed verbatim to every
other member of the room and to none besides — in particular never back to
the sender. -/
theorem role_gating (room : List ServerSocket) (s : ServerSocket)
    (bid sender : String) (data : BoardData)
    (hmem : s ∈ room) (hopen : ∀ c ∈ room, c.isOpen = true)
    (hids : (room.map (·.connectionId)).Nodup) :
    (isEditor s.accessRole = false →
      handleSocketMessage room s (WireMsg.boardUpdate bid data sender) = []) ∧
    (isEditor s.accessRole = true →
      (handleSocketMessage room s (WireMsg.boardUpdate bid data sender)).map Prod.fst
          = (room.filter (fun c => c.connectionId ≠ s.connectionId)).map
              (·.connectionId) ∧
      (∀ c ∈ room, c ≠ s → c.connectionId ∈
        (handleSocketMessage room s (WireMsg.boardUpdate bid data sender)).map
          Prod.fst) ∧
      s.connectionId ∉
        (handleSocketMessage room s (WireMsg.boardUpdate bid data sender)).map
          Prod.fst ∧
      (∀ d ∈ handleSocketMessage room s (WireMsg.boardUpdate bid data sender),
        d.2 = WireMsg.boardUpdate s.boardId data sender)) := by
  constructor
  · intro hrole
    simp [handleSocketMessage, hrole]
  · intro hrole
    have hfilter : room.filter
          (fun c => !decide (s.connectionId = c.connectionId) && c.isOpen)
        = room.filter (fun c => !decide (c.connectionId = s.connectionId)) := by
      apply List.filter_congr
      intro c hc
      simp [hopen c hc, eq_comm]
    refine ⟨?_, ?_, ?_, ?_⟩
    · simp only [handleSocketMessage, hrole, broadcastToRoom, if_true,
        List.map_map, ne_eq, Option.some.injEq, decide_not]
      rw [hfilter]
      simp [Function.comp]
    · intro c hc hne
      have hcid : c.connectionId ≠ s.connectionId := fun he =>
        hne (inj_on_connectionId hids c hc s hmem he)
      simp [handleSocketMessage, hrole, broadcastToRoom]
      exact ⟨c, ⟨hc, ⟨fun he => hcid he.symm, hopen c hc⟩⟩, rfl⟩
    · simp [handleSocketMessage, hrole, broadcastToRoom]
      intro x hx hne _
      exact fun he => hne he.symm
    · intro d hd
      simp [handleSocketMessage, hrole, broadcastToRoom] at hd
      obtain ⟨c, -, hc2⟩ := hd
      rw [← hc2]

/-- A concrete room used by witnesses: an owner, a viewer and an editor
socket, all open, distinct connection ids. -/
def sockOwner : ServerSocket :=
  { connectionId := "a", boardId := "b1", userId := "u1",
    accessRole := "owner", isOpen := true }

def sockViewer : ServerSocket :=
  { connectionId := "b", boardId := "b1", userId := "u2",
    accessRole := "viewer", isOpen := true }

def sockEditor : ServerSocket :=
  { connectionId := "c", boardId := "b1", userId := "u3",
    accessRole := "editor", isOpen := true }

def demoRoom : List ServerSocket := [sockOwner, sockViewer, sockEditor]

def emptyData : BoardData := { hexagons := [], comments := [], viewport := none }

/-- Witness for `role_gating`: in the concrete three-member room, the
viewer's update is relayed to nobody and the owner's update is relayed to
exactly the two other members. -/
theorem role_gating_witness :
    handleSocketMessage demoRoom sockViewer
      (WireMsg.boardUpdate "b1" emptyData "b") = [] ∧
    (handleSocketMessage demoRoom sockOwner
      (WireMsg.boardUpdate "b1" emptyData "a")).map Prod.fst = ["b", "c"] := by
  have hv := role_gating demoRoom sockViewer "b1" "b" emptyData
    (by decide) (by decide) (by decide)
  have ho := role_gating demoRoom sockOwner "b1" "a" emptyData
    (by decide) (by decide) (by decide)
  refine ⟨hv.1 (by decide), ?_⟩
  have h1 := (ho.2 (by decide)).1
  rw [h1]
  decide

/-- C10. Presence relay is not role-gated: whatever the sender's resolved
access role — including plain `viewer` — a `presence` message is relayed to
every other open member of the room (and never back to the sender); the
`isEditor` check guards only the `board_update` branch of the handler. -/
theorem presence_not_role_gated (room : List ServerSocket) (s : ServerSocket)
    (bid sender label : String) (cx cy : ℝ)
    (hmem : s ∈ room) (hopen : ∀ c ∈ room, c.isOpen = true)
    (hids : (room.map (·.connectionId)).Nodup) :
    (handleSocketMessage room s (WireMsg.presence bid sender cx cy label)).map
        Prod.fst
      = (room.filter (fun c => c.connectionId ≠ s.connectionId)).map
          (·.connectionId) ∧
    (∀ c ∈ room, c ≠ s → c.connectionId ∈
      (handleSocketMessage room s (WireMsg.presence bid sender cx cy label)).map
        Prod.fst) ∧
    s.connectionId ∉
      (handleSocketMessage room s (WireMsg.presence bid sender cx cy label)).map
        Prod.fst := by
  have hfilter : room.filter
        (fun c => !decide (s.connectionId = c.connectionId) && c.isOpen)
      = room.filter (fun c => !decide (c.connectionId = s.connectionId)) := by
    apply List.filter_congr
    intro c hc
    simp [hopen c hc, eq_comm]
  refine ⟨?_, ?_, ?_⟩
  · simp only [handleSocketMessage, broadcastToRoom, List.map_map, ne_eq,
      Option.some.injEq, decide_not]
    rw [hfilter]
    simp [Function.comp]
  · intro c hc hne
    have hcid : c.connectionId ≠ s.connectionId := fun he =>
      hne (inj_on_connectionId hids c hc s hmem he)
    simp [handleSocketMessage, broadcastToRoom]
    exact ⟨c, ⟨hc, ⟨fun he => hcid he.symm, hopen c hc⟩⟩, rfl⟩
  · simp [handleSocketMessage, broadcastToRoom]
    intro x hx hne _
    exact fun he => hne he.symm

/-- Witness for `presence_not_role_gated`: the viewer socket's presence
message reaches both other members of the concrete room. -/
theorem presence_not_role_gated_witness :
    (handleSocketMessage demoRoom sockViewer
      (WireMsg.presence "b1" "b" 1 2 "guest")).map Prod.fst = ["a", "c"] := by
  have h := presence_not_role_gated demoRoom sockViewer "b1" "b" "guest" 1 2
    (by decide) (by decide) (by decide)
  rw [h.1]
  decide

/-! ## Guest comment endpoint (`POST /share/:token/comments`)

From the server source: the handler first validates the body (`!text`, or a
non-numeric `x`/`y`, is a 400), then resolves the share token (404 when
unknown), rejects non-`comment` shares (403), and otherwise appends one
truncated comment to the board's `data.comments`, persists it, and
broadcasts the new data to the board's room with sender `share:<token>`
and no skipped socket. -/

/-- `String.prototype.slice(0, n)`: the first `n` characters. -/
def jsSlice (s : String) (n : Nat) : String :=
  String.mk (s.data.take n)

theorem length_jsSlice (s : String) (n : Nat) :
    (jsSlice s n).length = min n s.length := by
  cases s with
  | mk data =>
      show (data.take n).length = min n data.length
      exact List.length_take n data

/-- An anonymous share link row: token, role (`"view"` or `"comment"`) and
the board it points at. -/
structure BoardShare where
  token : String
  role : String
  boardId : String
  boardData : BoardData

/-- The JSON body of a comment request; `none` models an absent field or a
field of the wrong runtime type (`typeof x !== "number"`). -/
structure CommentRequestBody where
  text : Option String
  x : Option ℝ
  y : Option ℝ
  author : Option String

/-- The observable outcome of the endpoint: HTTP status, the updated board
data row (`none` when the board was not written), and the realtime
deliveries produced by `broadcastToRoom(boardId, payload, null)`. -/
structure CommentOutcome where
  status : Nat
  newData : Option BoardData
  deliveries : List (String × WireMsg)

/-- `author ? String(author).slice(0, 64) : "Guest"` — a falsy (absent or
empty) author becomes `"Guest"`. -/
def commentAuthor (author : Option String) : String :=
  match author with
  | none => "Guest"
  | some a => if a = "" then "Guest" else jsSlice a 64

/-- The comment record the handler builds. -/
def buildComment (body : CommentRequestBody) (t : String) (xv yv : ℝ)
    (newId createdAt : String) : BoardComment :=
  { id := newId, text := jsSlice t 280, x := xv, y := yv,
    author := commentAuthor body.author, createdAt := createdAt }

/-- The `POST /share/:token/comments` handler. `newId` and `createdAt` stand
for `crypto.randomUUID()` and `new Date().toISOString()`. -/
def postShareComment (shares : List BoardShare) (tok : String)
    (body : CommentRequestBody) (newId createdAt : String)
    (room : List ServerSocket) : CommentOutcome :=
  match body.text, body.x, body.y with
  | some t, some xv, some yv =>
      if t = "" then { status := 400, newData := none, deliveries := [] }
      else
        match shares.find? (fun sh => sh.token == tok) with
        | none => { status := 404, newData := none, deliveries := [] }
        | some share =>
            if share.role = "comment" then
              let comment := buildComment body t xv yv newId createdAt
              let nextData := { share.boardData with
                comments := share.boardData.comments ++ [comment] }
              { status := 201, newData := some nextData,
                deliveries := broadcastToRoom room
                  (WireMsg.boardUpdate share.boardId nextData ("share:" ++ tok))
                  none }
            else { status := 403, newData := none, deliveries := [] }
  | _, _, _ => { status := 400, newData := none, deliveries := [] }

/-- C9. Guest comment endpoint: a request with a falsy `text` or non-numeric
`x`/`y` is a 400 with no write and no broadcast; with a well-formed body an
unknown token is a 404 and a non-`comment` (e.g. `view`) share a 403, both
leaving the board unchanged; a `comment` share yields 201 and appends exactly
one comment — text truncated to ≤ 280 characters, author truncated to ≤ 64
characters and defaulting to `"Guest"` — and broadcasts the new data as a
`board_update` with sender `share:<token>` to every open member of the room. -/
theorem guest_comment_endpoint (shares : List BoardShare) (tok : String)
    (body : CommentRequestBody) (newId createdAt : String)
    (room : List ServerSocket) :
    ((body.text = none ∨ body.text = some "" ∨ body.x = none ∨ body.y = none) →
      postShareComment shares tok body newId createdAt room
        = { status := 400, newData := none, deliveries := [] }) ∧
    ((postShareComment shares tok body newId createdAt room).status = 201 →
      (∃ t, body.text = some t ∧ t ≠ "") ∧ body.x.isSome ∧ body.y.isSome ∧
      ∃ share, shares.find? (fun sh => sh.token == tok) = some share ∧
        share.role = "comment") ∧
    (∀ t xv yv, body.text = some t → t ≠ "" → body.x = some xv →
      body.y = some yv →
      (shares.find? (fun sh => sh.token == tok) = none →
        postShareComment shares tok body newId createdAt room
          = { status := 404, newData := none, deliveries := [] }) ∧
      (∀ share, shares.find? (fun sh => sh.token == tok) = some share →
        share.role ≠ "comment" →
        postShareComment shares tok body newId createdAt room
          = { status := 403, newData := none, deliveries := [] }) ∧
      (∀ share, shares.find? (fun sh => sh.token == tok) = some share →
        share.role = "comment" →
        postShareComment shares tok body newId createdAt room
          = { status := 201,
              newData := some { share.boardData with
                comments := share.boardData.comments ++
                  [buildComment body t xv yv newId createdAt] },
              deliveries := broadcastToRoom room
                (WireMsg.boardUpdate share.boardId
                  { share.boardData with
                    comments := share.boardData.comments ++
                      [buildComment body t xv yv newId createdAt] }
                  ("share:" ++ tok)) none } ∧
        (buildComment body t xv yv newId createdAt).text.length ≤ 280 ∧
        (buildComment body t xv yv newId createdAt).author.length ≤ 64 ∧
        ((body.author = none ∨ body.author = some "") →
          (buildComment body t xv yv newId createdAt).author = "Guest") ∧
        (broadcastToRoom room
            (WireMsg.boardUpdate share.boardId
              { share.boardData with
                comments := share.boardData.comments ++
                  [buildComment body t xv yv newId createdAt] }
              ("share:" ++ tok)) none).map Prod.fst
          = (room.filter (·.isOpen)).map (·.connectionId))) := by
  refine ⟨?_, ?_, ?_⟩
  · rintro (h | h | h | h) <;>
      · cases hbt : body.text <;> cases hbx : body.x <;> cases hby : body.y <;>
          simp_all [postShareComment]
  · intro h201
    cases hbt : body.text with
    | none => simp [postShareComment, hbt] at h201
    | some t =>
        cases hbx : body.x with
        | none => simp [postShareComment, hbt, hbx] at h201
        | some xv =>
            cases hby : body.y with
            | none => simp [postShareComment, hbt, hbx, hby] at h201
            | some yv =>
                by_cases ht : t = ""
                · simp [postShareComment, hbt, hbx, hby, ht] at h201
                · cases hf : shares.find? (fun sh => sh.token == tok) with
                  | none => simp [postShareComment, hbt, hbx, hby, ht, hf] at h201
                  | some share =>
                      by_cases hrole : share.role = "comment"
                      · exact ⟨⟨t, rfl, ht⟩, by simp [hbx], by simp [hby],
                          share, rfl, hrole⟩
                      · simp [postShareComment, hbt, hbx, hby, ht, hf, hrole]
                          at h201
  · intro t xv yv hbt ht hbx hby
    refine ⟨?_, ?_, ?_⟩
    · intro hf
      simp [postShareComment, hbt, hbx, hby, ht, hf]
    · intro share hf hrole
      simp [postShareComment, hbt, hbx, hby, ht, hf, hrole]
    · intro share hf hrole
      refine ⟨by simp [postShareComment, hbt, hbx, hby, ht, hf, hrole], ?_, ?_, ?_, ?_⟩
      · have := length_jsSlice t 280
        simp only [buildComment]
        omega
      · unfold buildComment commentAuthor
        cases body.author with
        | none =>
            show "Guest".length ≤ 64
            decide
        | some a =>
            by_cases ha : a = ""
            · simp only [ha, if_pos rfl]
              decide
            · have := length_jsSlice a 64
              simp [ha]
              omega
      · rintro (h | h) <;> simp [buildComment, commentAuthor, h]
      · simp [broadcastToRoom, Function.comp]

def demoCommentShare : BoardShare :=
  { token := "tok1", role := "comment", boardId := "b1", boardData := emptyData }

def demoViewShare : BoardShare :=
  { token := "tok2", role := "view", boardId := "b1", boardData := emptyData }

def demoBody : CommentRequestBody :=
  { text := some "hi", x := some 1, y := some 2, author := none }

/-- Witness for `guest_comment_endpoint`: concrete 201, 403, 404 and 400
outcomes. -/
theorem guest_comment_endpoint_witness :
    (postShareComment [demoCommentShare] "tok1" demoBody "cid" "now"
      demoRoom).status = 201 ∧
    postShareComment [demoViewShare] "tok2" demoBody "cid" "now" demoRoom
      = { status := 403, newData := none, deliveries := [] } ∧
    postShareComment [] "tok1" demoBody "cid" "now" demoRoom
      = { status := 404, newData := none, deliveries := [] } ∧
    postShareComment [demoCommentShare] "tok1"
      { text := none, x := some 1, y := some 2, author := none } "cid" "now"
      demoRoom
      = { status := 400, newData := none, deliveries := [] } := by
  have h1 := guest_comment_endpoint [demoCommentShare] "tok1" demoBody "cid"
    "now" demoRoom
  have h2 := guest_comment_endpoint [demoViewShare] "tok2" demoBody "cid"
    "now" demoRoom
  have h3 := guest_comment_endpoint [] "tok1" demoBody "cid" "now" demoRoom
  have h4 := guest_comment_endpoint [demoCommentShare] "tok1"
    { text := none, x := some 1, y := some 2, author := none } "cid" "now"
    demoRoom
  refine ⟨?_, ?_, ?_, ?_⟩
  · have hs := ((h1.2.2 "hi" 1 2 rfl (by decide) rfl rfl).2.2 demoCommentShare
      rfl rfl).1
    rw [hs]
  · exact (h2.2.2 "hi" 1 2 rfl (by decide) rfl rfl).2.1 demoViewShare rfl
      (by decide)
  · exact (h3.2.2 "hi" 1 2 rfl (by decide) rfl rfl).1 rfl
  · exact h4.1 (Or.inl rfl)

/-! ## Realtime sync client (`web/src/App.jsx`)

`queueBoardBroadcast` throttles outbound updates: if at least 90 ms have
passed since `lastSendRef`, send immediately; otherwise (re)schedule a
single trailing timer for the remaining wait — `clearTimeout` on the old
timer means only the latest state is ever pending. The `socket.onmessage`
handler drops own echoes by `sender === clientId.current`, and applies a
remote update by setting `suppressBroadcastRef` and `setBoardData` without
touching the history refs; the reactive broadcast effect consumes the
suppression flag once. The presence branches of `onmessage` touch only
the presence maps, which are irrelevant to board state and not modelled. -/

/-- Outbound throttle state: `lastSendRef` and the single scheduled trailing
timer (`wsSendTimer`), which — when armed — will send the stored board id
and data at instant `lastSend + 90`. -/
structure SyncState where
  lastSend : ℤ
  pending : Option (String × BoardData)

/-- The slice of the client component's state that the sync logic reads and
writes: identity, gating flags, the board data, the history refs, the
suppression flag and the throttle state. -/
structure ClientState where
  selfId : String
  activeBoardId : Option String
  canEdit : Bool
  wsOpen : Bool
  boardData : BoardData
  undoStack : List BoardData
  redoStack : List BoardData
  suppressBroadcast : Bool
  sync : SyncState

/-- `queueBoardBroadcast(nextData)` at instant `now`: gate on `canEdit`,
an active board and an open socket; send immediately when ≥ 90 ms have
elapsed since the last send, otherwise replace any pending trailing send
with this one. Returns the new state and the messages put on the wire. -/
def queueBoardBroadcast (st : ClientState) (now : ℤ) (nextData : BoardData) :
    ClientState × List WireMsg :=
  if !st.canEdit then (st, [])
  else
    match st.activeBoardId with
    | none => (st, [])
    | some bid =>
        if !st.wsOpen then (st, [])
        else
          let elapsed := now - st.sync.lastSend
          if elapsed ≥ 90 then
            ({ st with sync := { st.sync with lastSend := now } },
             [WireMsg.boardUpdate bid nextData st.selfId])
          else
            ({ st with sync := { st.sync with pending := some (bid, nextData) } },
             [])

/-- The trailing `setTimeout` callback firing at instant `now`: re-check the
socket, send the captured payload, record the send time. The timer is no
longer armed afterwards in every case. -/
def fireTimer (st : ClientState) (now : ℤ) : ClientState × List WireMsg :=
  match st.sync.pending with
  | none => (st, [])
  | some (bid, d) =>
      if st.wsOpen then
        ({ st with sync := { lastSend := now, pending := none } },
         [WireMsg.boardUpdate bid d st.selfId])
      else
        ({ st with sync := { st.sync with pending := none } }, [])

/-- The `socket.onmessage` handler for a `board_update`: drop own echoes,
otherwise arm the suppression flag and adopt the carried data. The history
refs are untouched. -/
def clientOnMessage (st : ClientState) (msg : WireMsg) : ClientState :=
  match msg with
  | WireMsg.boardUpdate _ data sender =>
      if sender = st.selfId then st
      else { st with suppressBroadcast := true, boardData := data }
  | _ => st

/-- The `useEffect` over `[boardData, activeBoardId]`: a set suppression
flag eats exactly this run of the effect; otherwise the effect runs the
throttled broadcast of the current board data. -/
def broadcastEffect (st : ClientState) (now : ℤ) : ClientState × List WireMsg :=
  if st.suppressBroadcast then ({ st with suppressBroadcast := false }, [])
  else queueBoardBroadcast st now st.boardData

/-- C4. Echo suppression: an inbound `board_update` whose sender is this
client's own id leaves the client state entirely unchanged; one from another
sender adopts the carried data without touching the undo/redo stacks and
arms the one-shot suppression flag, so the next reactive broadcast effect
emits nothing and only clears the flag — after which the effect behaves
normally again (it is suppressed exactly once). -/
theorem echo_suppression (st : ClientState) (bid : String) (data : BoardData)
    (sender : String) (now : ℤ) :
    (sender = st.selfId →
      clientOnMessage st (WireMsg.boardUpdate bid data sender) = st) ∧
    (sender ≠ st.selfId →
      (clientOnMessage st (WireMsg.boardUpdate bid data sender)).boardData
          = data ∧
      (clientOnMessage st (WireMsg.boardUpdate bid data sender)).undoStack
          = st.undoStack ∧
      (clientOnMessage st (WireMsg.boardUpdate bid data sender)).redoStack
          = st.redoStack ∧
      (clientOnMessage st (WireMsg.boardUpdate bid data sender)).suppressBroadcast
          = true ∧
      broadcastEffect (clientOnMessage st (WireMsg.boardUpdate bid data sender))
          now
        = ({ clientOnMessage st (WireMsg.boardUpdate bid data sender) with
              suppressBroadcast := false }, [])) ∧
    (st.suppressBroadcast = false →
      broadcastEffect st now = queueBoardBroadcast st now st.boardData) := by
  refine ⟨?_, ?_, ?_⟩
  · intro hs
    simp [clientOnMessage, hs]
  · intro hs
    refine ⟨?_, ?_, ?_, ?_, ?_⟩ <;>
      simp [clientOnMessage, broadcastEffect, hs]
  · intro hs
    simp [broadcastEffect, hs]

/-- Witness for `echo_suppression` at a concrete client state. -/
theorem echo_suppression_witness :
    clientOnMessage
        { selfId := "me", activeBoardId := some "b1", canEdit := true,
          wsOpen := true, boardData := emptyData, undoStack := [],
          redoStack := [], suppressBroadcast := false,
          sync := { lastSend := 0, pending := none } }
        (WireMsg.boardUpdate "b1" emptyData "me")
      = { selfId := "me", activeBoardId := some "b1", canEdit := true,
          wsOpen := true, boardData := emptyData, undoStack := [],
          redoStack := [], suppressBroadcast := false,
          sync := { lastSend := 0, pending := none } } ∧
    (clientOnMessage
        { selfId := "me", activeBoardId := some "b1", canEdit := true,
          wsOpen := true, boardData := emptyData, undoStack := [],
          redoStack := [], suppressBroadcast := false,
          sync := { lastSend := 0, pending := none } }
        (WireMsg.boardUpdate "b1" emptyData "other")).suppressBroadcast = true := by
  have h := echo_suppression
    { selfId := "me", activeBoardId := some "b1", canEdit := true,
      wsOpen := true, boardData := emptyData, undoStack := [],
      redoStack := [], suppressBroadcast := false,
      sync := { lastSend := 0, pending := none } } "b1" emptyData "me" 0
  have h2 := echo_suppression
    { selfId := "me", activeBoardId := some "b1", canEdit := true,
      wsOpen := true, boardData := emptyData, undoStack := [],
      redoStack := [], suppressBroadcast := false,
      sync := { lastSend := 0, pending := none } } "b1" emptyData "other" 0
  exact ⟨h.1 rfl, ((h2.2.1 (by decide)).2.2.2.1)⟩

/-- A burst of local board-state changes, each running the reactive
broadcast check at its instant, processed left to right. -/
def processChanges (st : ClientState) (evts : List (ℤ × BoardData)) :
    ClientState × List WireMsg :=
  match evts with
  | [] => (st, [])
  | (t, d) :: rest =>
      let p := queueBoardBroadcast st t d
      let q := processChanges p.1 rest
      (q.1, p.2 ++ q.2)

theorem queueBoardBroadcast_trailing (st : ClientState) (bid : String)
    (t : ℤ) (d : BoardData) (hce : st.canEdit = true)
    (hbid : st.activeBoardId = some bid) (hws : st.wsOpen = true)
    (hlt : t - st.sync.lastSend < 90) :
    queueBoardBroadcast st t d
      = ({ st with sync := { st.sync with pending := some (bid, d) } }, []) := by
  simp only [queueBoardBroadcast, hce, hbid, hws, Bool.not_true, Bool.false_eq_true,
    if_false]
  rw [if_neg (by omega)]

theorem processChanges_cons (st : ClientState) (t : ℤ) (d : BoardData)
    (rest : List (ℤ × BoardData)) :
    processChanges st ((t, d) :: rest)
      = ((processChanges (queueBoardBroadcast st t d).1 rest).1,
         (queueBoardBroadcast st t d).2
           ++ (processChanges (queueBoardBroadcast st t d).1 rest).2) := rfl

theorem processChanges_trailing (bid : String) :
    ∀ (evts : List (ℤ × BoardData)) (st : ClientState),
      st.canEdit = true → st.activeBoardId = some bid → st.wsOpen = true →
      (∀ td ∈ evts, td.1 - st.sync.lastSend < 90) →
      ∀ tl dl, evts.getLast? = some (tl, dl) →
      (processChanges st evts).2 = [] ∧
      (processChanges st evts).1
        = { st with sync := { st.sync with pending := some (bid, dl) } } := by
  intro evts
  induction evts with
  | nil =>
      intro st _ _ _ _ tl dl h
      simp at h
  | cons hd rest ih =>
      intro st hce hbid hws hwin tl dl hlast
      obtain ⟨t, d⟩ := hd
      have hstep := queueBoardBroadcast_trailing st bid t d hce hbid hws
        (hwin (t, d) (by simp))
      cases rest with
      | nil =>
          simp only [List.getLast?_singleton, Option.some.injEq, Prod.mk.injEq]
            at hlast
          obtain ⟨h1, h2⟩ := hlast
          subst h2
          rw [processChanges_cons, hstep]
          exact ⟨rfl, rfl⟩
      | cons hd2 rest2 =>
          have hlast' : (hd2 :: rest2).getLast? = some (tl, dl) := by
            rw [← hlast]
            rw [List.getLast?_cons_cons]
          have ihr := ih ({ st with sync :=
              { st.sync with pending := some (bid, d) } }) hce hbid hws
            (by
              intro td htd
              exact hwin td (by simp [htd]))
            tl dl hlast'
          rw [processChanges_cons, hstep]
          refine ⟨?_, ?_⟩
          · show [] ++ _ = _
            rw [List.nil_append]
            exact ihr.1
          · exact ihr.2

/-- C7. Throttle coalescing: when every change in a burst happens strictly
within 90 ms of the last actual send (and the socket is open, the board
active, the client an editor), processing the whole burst sends nothing on
the wire — each step merely replaces the pending trailing send, so a newly
scheduled send supersedes the previous one — and leaves exactly one trailing
send pending, carrying the final state; when that timer fires, exactly one
`board_update` with the final state goes out. A change arriving when ≥ 90 ms
have already elapsed is instead sent immediately. -/
theorem throttle_coalescing (st : ClientState) (bid : String)
    (evts : List (ℤ × BoardData))
    (hce : st.canEdit = true) (hbid : st.activeBoardId = some bid)
    (hws : st.wsOpen = true)
    (hwin : ∀ td ∈ evts, td.1 - st.sync.lastSend < 90) :
    (∀ t d, t - st.sync.lastSend ≥ 90 →
      queueBoardBroadcast st t d
        = ({ st with sync := { st.sync with lastSend := t } },
           [WireMsg.boardUpdate bid d st.selfId])) ∧
    (∀ t d, t - st.sync.lastSend < 90 →
      queueBoardBroadcast st t d
        = ({ st with sync := { st.sync with pending := some (bid, d) } }, [])) ∧
    (∀ tl dl, evts.getLast? = some (tl, dl) →
      (processChanges st evts).2 = [] ∧
      (processChanges st evts).1.sync.pending = some (bid, dl) ∧
      (processChanges st evts).1.sync.lastSend = st.sync.lastSend ∧
      ∀ now, (fireTimer (processChanges st evts).1 now).2
        = [WireMsg.boardUpdate bid dl st.selfId] ∧
        (fireTimer (processChanges st evts).1 now).1.sync.pending = none ∧
        (fireTimer (processChanges st evts).1 now).1.sync.lastSend = now) := by
  refine ⟨?_, ?_, ?_⟩
  · intro t d hge
    simp only [queueBoardBroadcast, hce, hbid, hws, Bool.not_true,
      Bool.false_eq_true, if_false]
    rw [if_pos (by omega)]
  · intro t d hlt
    exact queueBoardBroadcast_trailing st bid t d hce hbid hws hlt
  · intro tl dl hlast
    obtain ⟨houts, hstate⟩ := processChanges_trailing bid evts st hce hbid hws
      hwin tl dl hlast
    refine ⟨houts, by rw [hstate], by rw [hstate], ?_⟩
    intro now
    rw [hstate]
    simp [fireTimer, hws]

/-- Witness for `throttle_coalescing`: five rapid changes at 10 ms spacing
after a send at instant 0 coalesce into a single pending send with the
fifth state, emitted once when the trailing timer fires at instant 90. -/
theorem throttle_coalescing_witness :
    (processChanges
        { selfId := "me", activeBoardId := some "b1", canEdit := true,
          wsOpen := true, boardData := emptyData, undoStack := [],
          redoStack := [], suppressBroadcast := false,
          sync := { lastSend := 0, pending := none } }
        [(10, emptyData), (20, emptyData), (30, emptyData), (40, emptyData),
         (50, { hexagons := [], comments := [], viewport := none })]).2 = [] ∧
    (fireTimer (processChanges
        { selfId := "me", activeBoardId := some "b1", canEdit := true,
          wsOpen := true, boardData := emptyData, undoStack := [],
          redoStack := [], suppressBroadcast := false,
          sync := { lastSend := 0, pending := none } }
        [(10, emptyData), (20, emptyData), (30, emptyData), (40, emptyData),
         (50, { hexagons := [], comments := [], viewport := none })]).1 90).2
      = [WireMsg.boardUpdate "b1"
          { hexagons := [], comments := [], viewport := none } "me"] := by
  have h := throttle_coalescing
    { selfId := "me", activeBoardId := some "b1", canEdit := true,
      wsOpen := true, boardData := emptyData, undoStack := [],
      redoStack := [], suppressBroadcast := false,
      sync := { lastSend := 0, pending := none } } "b1"
    [(10, emptyData), (20, emptyData), (30, emptyData), (40, emptyData),
     (50, { hexagons := [], comments := [], viewport := none })]
    rfl rfl rfl
    (by
      intro td htd
      simp at htd
      rcases htd with h | h | h | h | h <;> rw [h] <;> norm_num)
  have h3 := h.2.2 50 { hexagons := [], comments := [], viewport := none }
    (by rfl)
  exact ⟨h3.1, (h3.2.2.2 90).1⟩

/-! ## Board structural operations (`web/src/App.jsx`)

The geometric interaction engine works on `boardData.hexagons`. Real-number
comparisons in the source (squared distances, velocities) are classical
`if`s here, so the geometric definitions are `noncomputable` — exactly the
parts where the source computes with floating point. -/

/-- `Math.atan2 y x`, modelled as the argument of the complex number
`x + y*I`; `Complex.arg` agrees with `atan2` at every real input, including
the axes and the origin. -/
noncomputable def atan2 (y x : ℝ) : ℝ :=
  Complex.arg ⟨x, y⟩

/-- `clearConnectionsFor(hexagons, id)`: empty the connection set of the
hexagon `id` and remove `id` from every other hexagon's connections. -/
def clearConnectionsFor (hexagons : List Hexagon) (id : String) : List Hexagon :=
  hexagons.map fun hex =>
    if hex.id = id then { hex with connections := [] }
    else if id ∈ hex.connections then
      { hex with connections := hex.connections.filter (· ≠ id) }
    else hex

/-- `handleDisconnectSelected`: clear connections for each selected id in
iteration order. -/
def handleDisconnectSelected (hexagons : List Hexagon) (sel : List String) :
    List Hexagon :=
  sel.foldl clearConnectionsFor hexagons

/-- `handleDeleteSelected`: drop the selected hexagons and filter the
selected ids out of the survivors' connections. -/
def handleDeleteSelected (hexagons : List Hexagon) (sel : List String) :
    List Hexagon :=
  (hexagons.filter (fun hex => hex.id ∉ sel)).map fun hex =>
    { hex with connections := hex.connections.filter (· ∉ sel) }

/-- `handleDuplicateSelected`: clone each selected hexagon with a fresh id
(`crypto.randomUUID()`, modelled by the `newIds` list), offset by (40, 40),
with empty connections — note the spread `...hex` copies `number` verbatim. -/
def handleDuplicateSelected (hexagons : List Hexagon) (sel : List String)
    (newIds : List String) : List Hexagon :=
  let selected := hexagons.filter (fun hex => hex.id ∈ sel)
  let clones := (selected.zip newIds).map fun p =>
    { p.1 with id := p.2, x := p.1.x + 40, y := p.1.y + 40, connections := [] }
  hexagons ++ clones

/-- `Math.max(0, ...hexagons.map(hex => hex.number || 0))`. -/
def maxHexNumber (hexagons : List Hexagon) : ℤ :=
  hexagons.foldl (fun m hex => max m hex.number) 0

/-- `Math.ceil(Math.sqrt n)` on a natural number. -/
def ceilSqrt (n : ℕ) : ℕ :=
  if Nat.sqrt n * Nat.sqrt n = n then Nat.sqrt n else Nat.sqrt n + 1

/-- `handleAddHexagon(count, color)`: append `count` fresh hexagons numbered
`maxNumber + 1 + i`, laid out on a `ceil(sqrt count)`-column grid around the
screen-centre world point, positions rounded to the 20-pixel grid, with
empty connections. `newIds i` models the i-th `crypto.randomUUID()`. -/
noncomputable def handleAddHexagon (hexagons : List Hexagon) (count : ℕ)
    (color : String) (worldX worldY : ℝ) (newIds : ℕ → String) : List Hexagon :=
  let maxNumber := maxHexNumber hexagons
  let cols := ceilSqrt count
  let spacing : ℝ := 36 * 2.2
  hexagons ++ (List.range count).map fun i =>
    { id := newIds i
      number := maxNumber + 1 + i
      x := ((round ((worldX + (i % cols) * spacing) / 20) : ℤ) : ℝ) * 20
      y := ((round ((worldY + (i / cols) * spacing) / 20) : ℤ) : ℝ) * 20
      text := "New"
      fillColor := color
      connections := []
      content := none }

/-- The closest-neighbour search inside `snapHexagonToNeighbors`: a fold
over the indexed hexagon list carrying `(closestIndex, closestDistSquared)`;
`none` plays the role of the initial `closestIndex = -1` /
`closestDistSquared = Infinity` pair, so the first in-range candidate always
wins against it. -/
noncomputable def findClosest (hexagons : List Hexagon) (dragged : Hexagon)
    (draggedId : String) (snapDistanceSquared : ℝ) : Option (ℕ × ℝ) :=
  hexagons.enum.foldl
    (fun acc p =>
      if p.2.id = draggedId then acc
      else
        let dx := dragged.x - p.2.x
        let dy := dragged.y - p.2.y
        let d2 := dx * dx + dy * dy
        match acc with
        | none => if d2 ≤ snapDistanceSquared then some (p.1, d2) else none
        | some (ci, best) =>
            if d2 ≤ snapDistanceSquared ∧ d2 < best then some (p.1, d2)
            else some (ci, best))
    none

/-- `snapHexagonToNeighbors(hexagons, draggedId, snapDistance,
snapDistanceSquared)`: find the dragged hexagon, search for the nearest
other hexagon within the squared snap distance; if found, reposition the
dragged hexagon exactly `snapDistance` from it along `atan2` of their
center offset and record the connection on both sides through a JS `Set`. -/
noncomputable def snapHexagonToNeighbors (hexagons : List Hexagon)
    (draggedId : String) (snapDistance snapDistanceSquared : ℝ) :
    List Hexagon :=
  match hexagons.findIdx? (fun hex => hex.id == draggedId) with
  | none => hexagons
  | some di =>
      let dragged := hexagons.getD di default
      match findClosest hexagons dragged draggedId snapDistanceSquared with
      | none => hexagons
      | some (ci, _) =>
          let closest := hexagons.getD ci default
          let dx := dragged.x - closest.x
          let dy := dragged.y - closest.y
          let angle := atan2 dy dx
          let newX := closest.x + Real.cos angle * snapDistance
          let newY := closest.y + Real.sin angle * snapDistance
          (hexagons.set di
            { dragged with
              x := newX
              y := newY
              connections := insertUnique (jsDedup dragged.connections)
                closest.id }).set ci
            { closest with
              connections := insertUnique (jsDedup closest.connections)
                dragged.id }

/-! ## Drag engine: flick-detach (`handleCanvasPointerMove`)

A pointer-move while dragging computes the instantaneous speed from the
last sample; within the first 200 ms of the drag, a speed whose px/s value
exceeds `disconnectVelocityThreshold` clears the dragged hexagon's
connections once (latched by `breakConnections`) and restarts the drag at
the current point as a single-node drag; otherwise every hexagon in the
drag set is translated rigidly by the cumulative delta. The source nests
the time check and the velocity check in two `if`s with a common fall
through; here they are one conjunction. -/

/-- The drag state recorded by `handleHexPointerDown`. -/
structure DragState where
  id : String
  startX : ℝ
  startY : ℝ
  startPositions : List (String × ℝ × ℝ)
  lastX : ℝ
  lastY : ℝ
  lastTime : ℝ
  lastSpeed : ℝ
  startTime : ℝ
  breakConnections : Bool

/-- `dragState.startPositions[hex.id]` (object lookup by id). -/
def lookupStart (sp : List (String × ℝ × ℝ)) (id : String) : Option (ℝ × ℝ) :=
  (sp.find? (fun p => p.1 == id)).map (·.2)

/-- `Math.hypot(x − lastX, y − lastY) / Math.max(1, now − lastTime)`. -/
noncomputable def moveSpeed (ds : DragState) (x y now : ℝ) : ℝ :=
  Real.sqrt ((x - ds.lastX) ^ 2 + (y - ds.lastY) ^ 2) / max 1 (now - ds.lastTime)

/-- One `handleCanvasPointerMove` step at world point `(x, y)`, instant
`now`. Returns the new hexagons, the new drag state, and whether this step
cleared connections (the flick-detach branch). -/
noncomputable def handleCanvasPointerMove (threshold : ℝ)
    (hexagons : List Hexagon) (ds : DragState) (x y now : ℝ) :
    List Hexagon × DragState × Bool :=
  let dx := x - ds.startX
  let dy := y - ds.startY
  let speed := moveSpeed ds x y now
  if ds.breakConnections = false ∧ now - ds.startTime < 200 ∧
      speed * 1000 > threshold then
    (clearConnectionsFor hexagons ds.id,
     { ds with
       startPositions := [(ds.id, x, y)]
       startX := x
       startY := y
       lastX := x
       lastY := y
       lastTime := now
       lastSpeed := speed
       breakConnections := true }, true)
  else
    (hexagons.map fun hex =>
      match lookupStart ds.startPositions hex.id with
      | some (sx, sy) => { hex with x := sx + dx, y := sy + dy }
      | none => hex,
     { ds with
       lastX := x
       lastY := y
       lastTime := now
       lastSpeed := speed }, false)

/-- A whole drag: fold the pointer-move handler over a list of `(x, y, t)`
samples, counting how many steps cleared connections. -/
noncomputable def runMoves (threshold : ℝ) (hexagons : List Hexagon)
    (ds : DragState) (events : List (ℝ × ℝ × ℝ)) :
    List Hexagon × DragState × ℕ :=
  match events with
  | [] => (hexagons, ds, 0)
  | (x, y, t) :: rest =>
      let r := handleCanvasPointerMove threshold hexagons ds x y t
      let rr := runMoves threshold r.1 r.2.1 rest
      (rr.1, rr.2.1, (if r.2.2 then 1 else 0) + rr.2.2)

/-- The id/connection structure of a board, forgetting geometry. -/
def connProj (hexagons : List Hexagon) : List (String × List String) :=
  hexagons.map fun h => (h.id, h.connections)

theorem move_step_no_clear (threshold : ℝ) (hexagons : List Hexagon)
    (ds : DragState) (x y now : ℝ)
    (hcond : ¬(ds.breakConnections = false ∧ now - ds.startTime < 200 ∧
      moveSpeed ds x y now * 1000 > threshold)) :
    handleCanvasPointerMove threshold hexagons ds x y now
      = (hexagons.map fun hex =>
          match lookupStart ds.startPositions hex.id with
          | some (sx, sy) =>
              { hex with x := sx + (x - ds.startX), y := sy + (y - ds.startY) }
          | none => hex,
        { ds with
          lastX := x
          lastY := y
          lastTime := now
          lastSpeed := moveSpeed ds x y now }, false) := by
  rw [handleCanvasPointerMove, if_neg hcond]

theorem move_step_clear (threshold : ℝ) (hexagons : List Hexagon)
    (ds : DragState) (x y now : ℝ)
    (hcond : ds.breakConnections = false ∧ now - ds.startTime < 200 ∧
      moveSpeed ds x y now * 1000 > threshold) :
    handleCanvasPointerMove threshold hexagons ds x y now
      = (clearConnectionsFor hexagons ds.id,
        { ds with
          startPositions := [(ds.id, x, y)]
          startX := x
          startY := y
          lastX := x
          lastY := y
          lastTime := now
          lastSpeed := moveSpeed ds x y now
          breakConnections := true }, true) := by
  rw [handleCanvasPointerMove, if_pos hcond]

theorem connProj_map_id_conn (hexagons : List Hexagon) (f : Hexagon → Hexagon)
    (hf : ∀ h, (f h).id = h.id ∧ (f h).connections = h.connections) :
    connProj (hexagons.map f) = connProj hexagons := by
  induction hexagons with
  | nil => rfl
  | cons a t ih =>
      simp only [connProj, List.map_cons] at ih ⊢
      rw [ih, (hf a).1, (hf a).2]

/-- `clearConnectionsFor` at the id/connection level. -/
def projClear (ps : List (String × List String)) (i : String) :
    List (String × List String) :=
  ps.map fun p =>
    if p.1 = i then (p.1, [])
    else if i ∈ p.2 then (p.1, p.2.filter (· ≠ i))
    else p

theorem connProj_clear (l : List Hexagon) (i : String) :
    connProj (clearConnectionsFor l i) = projClear (connProj l) i := by
  induction l with
  | nil => rfl
  | cons a t ih =>
      simp only [connProj, clearConnectionsFor, projClear, List.map_cons] at ih ⊢
      refine congrArg₂ List.cons ?_ ih
      by_cases h1 : a.id = i
      · simp [h1]
      · by_cases h2 : i ∈ a.connections <;> simp [h1, h2]

theorem runMoves_cons (threshold : ℝ) (hexagons : List Hexagon)
    (ds : DragState) (x y t : ℝ) (rest : List (ℝ × ℝ × ℝ)) :
    runMoves threshold hexagons ds ((x, y, t) :: rest)
      = ((runMoves threshold
            (handleCanvasPointerMove threshold hexagons ds x y t).1
            (handleCanvasPointerMove threshold hexagons ds x y t).2.1 rest).1,
         (runMoves threshold
            (handleCanvasPointerMove threshold hexagons ds x y t).1
            (handleCanvasPointerMove threshold hexagons ds x y t).2.1 rest).2.1,
         (if (handleCanvasPointerMove threshold hexagons ds x y t).2.2
            then 1 else 0)
           + (runMoves threshold
               (handleCanvasPointerMove threshold hexagons ds x y t).1
               (handleCanvasPointerMove threshold hexagons ds x y t).2.1
               rest).2.2) := rfl

theorem runMoves_append (threshold : ℝ) :
    ∀ (pre rest : List (ℝ × ℝ × ℝ)) (hexagons : List Hexagon) (ds : DragState),
      runMoves threshold hexagons ds (pre ++ rest)
        = ((runMoves threshold (runMoves threshold hexagons ds pre).1
              (runMoves threshold hexagons ds pre).2.1 rest).1,
           (runMoves threshold (runMoves threshold hexagons ds pre).1
              (runMoves threshold hexagons ds pre).2.1 rest).2.1,
           (runMoves threshold hexagons ds pre).2.2
             + (runMoves threshold (runMoves threshold hexagons ds pre).1
                 (runMoves threshold hexagons ds pre).2.1 rest).2.2) := by
  intro pre
  induction pre with
  | nil =>
      intro rest hexagons ds
      have h0 : runMoves threshold hexagons ds [] = (hexagons, ds, 0) := rfl
      simp only [List.nil_append, h0]
      rw [Nat.zero_add]
  | cons hd tl ih =>
      intro rest hexagons ds
      obtain ⟨x, y, t⟩ := hd
      rw [List.cons_append, runMoves_cons, runMoves_cons, ih]
      exact Prod.ext rfl (Prod.ext rfl (by dsimp only; omega))

theorem connProj_moveMap (hexagons : List Hexagon)
    (sp : List (String × ℝ × ℝ)) (dx dy : ℝ) :
    connProj (hexagons.map fun hex =>
      match lookupStart sp hex.id with
      | some (sx, sy) => { hex with x := sx + dx, y := sy + dy }
      | none => hex) = connProj hexagons := by
  apply connProj_map_id_conn
  intro h
  cases lookupStart sp h.id with
  | none => exact ⟨rfl, rfl⟩
  | some p =>
      obtain ⟨sx, sy⟩ := p
      exact ⟨rfl, rfl⟩

theorem runMoves_latched (threshold : ℝ) :
    ∀ (events : List (ℝ × ℝ × ℝ)) (hexagons : List Hexagon) (ds : DragState),
      ds.breakConnections = true →
      (runMoves threshold hexagons ds events).2.2 = 0 ∧
      connProj (runMoves threshold hexagons ds events).1 = connProj hexagons ∧
      (runMoves threshold hexagons ds events).2.1.breakConnections = true ∧
      (runMoves threshold hexagons ds events).2.1.startPositions
        = ds.startPositions ∧
      (runMoves threshold hexagons ds events).2.1.id = ds.id ∧
      (runMoves threshold hexagons ds events).2.1.startTime = ds.startTime := by
  intro events
  induction events with
  | nil =>
      intro hexagons ds hbc
      exact ⟨rfl, rfl, hbc, rfl, rfl, rfl⟩
  | cons hd rest ih =>
      intro hexagons ds hbc
      obtain ⟨x, y, t⟩ := hd
      have hcond : ¬(ds.breakConnections = false ∧ t - ds.startTime < 200 ∧
          moveSpeed ds x y t * 1000 > threshold) := by
        rintro ⟨h1, -, -⟩
        rw [hbc] at h1
        simp at h1
      rw [runMoves_cons, move_step_no_clear threshold hexagons ds x y t hcond]
      dsimp only
      obtain ⟨hc, hconn, hbc', hsp, hid, hst⟩ := ih _ _ (show
        ({ ds with
            lastX := x
            lastY := y
            lastTime := t
            lastSpeed := moveSpeed ds x y t }).breakConnections = true from hbc)
      refine ⟨by simp [hc], ?_, hbc', hsp, hid, hst⟩
      rw [hconn]
      exact connProj_moveMap hexagons ds.startPositions (x - ds.startX)
        (y - ds.startY)

theorem runMoves_count_zero (threshold : ℝ) :
    ∀ (events : List (ℝ × ℝ × ℝ)) (hexagons : List Hexagon) (ds : DragState),
      (runMoves threshold hexagons ds events).2.2 = 0 →
      connProj (runMoves threshold hexagons ds events).1 = connProj hexagons ∧
      (runMoves threshold hexagons ds events).2.1.breakConnections
        = ds.breakConnections ∧
      (runMoves threshold hexagons ds events).2.1.startPositions
        = ds.startPositions ∧
      (runMoves threshold hexagons ds events).2.1.id = ds.id ∧
      (runMoves threshold hexagons ds events).2.1.startTime = ds.startTime := by
  intro events
  induction events with
  | nil =>
      intro hexagons ds _
      exact ⟨rfl, rfl, rfl, rfl, rfl⟩
  | cons hd rest ih =>
      intro hexagons ds hzero
      obtain ⟨x, y, t⟩ := hd
      by_cases hcond : ds.breakConnections = false ∧ t - ds.startTime < 200 ∧
          moveSpeed ds x y t * 1000 > threshold
      · exfalso
        rw [runMoves_cons, move_step_clear threshold hexagons ds x y t hcond]
          at hzero
        simp at hzero
      · rw [runMoves_cons, move_step_no_clear threshold hexagons ds x y t hcond]
          at hzero ⊢
        dsimp only at hzero ⊢
        rw [if_neg (by simp), Nat.zero_add] at hzero
        obtain ⟨hconn, hbc', hsp, hid, hst⟩ := ih _ _ hzero
        refine ⟨?_, hbc', hsp, hid, hst⟩
        rw [hconn]
        exact connProj_moveMap hexagons ds.startPositions (x - ds.startX)
          (y - ds.startY)

theorem runMoves_no_clear (threshold : ℝ) :
    ∀ (events : List (ℝ × ℝ × ℝ)) (hexagons : List Hexagon) (ds : DragState),
      (∀ pre x y t post, events = pre ++ (x, y, t) :: post →
        moveSpeed (runMoves threshold hexagons ds pre).2.1 x y t * 1000
          ≤ threshold) →
      (runMoves threshold hexagons ds events).2.2 = 0 := by
  intro events
  induction events with
  | nil =>
      intro hexagons ds _
      rfl
  | cons hd rest ih =>
      intro hexagons ds hvel
      obtain ⟨x, y, t⟩ := hd
      have hfirst := hvel [] x y t rest rfl
      have hcond : ¬(ds.breakConnections = false ∧ t - ds.startTime < 200 ∧
          moveSpeed ds x y t * 1000 > threshold) := by
        rintro ⟨-, -, hgt⟩
        exact absurd hgt (not_lt.mpr hfirst)
      have hstep := move_step_no_clear threshold hexagons ds x y t hcond
      rw [runMoves_cons, hstep]
      dsimp only
      rw [if_neg (by simp), Nat.zero_add]
      apply ih
      intro pre' x' y' t' post' hrest
      have h := hvel ((x, y, t) :: pre') x' y' t' post' (by rw [hrest]; rfl)
      rw [runMoves_cons, hstep] at h
      exact h

theorem runMoves_clears_le (threshold : ℝ) :
    ∀ (events : List (ℝ × ℝ × ℝ)) (hexagons : List Hexagon) (ds : DragState),
      (runMoves threshold hexagons ds events).2.2
        ≤ if ds.breakConnections then 0 else 1 := by
  intro events
  induction events with
  | nil =>
      intro hexagons ds
      simp [runMoves]
  | cons hd rest ih =>
      intro hexagons ds
      obtain ⟨x, y, t⟩ := hd
      by_cases hcond : ds.breakConnections = false ∧ t - ds.startTime < 200 ∧
          moveSpeed ds x y t * 1000 > threshold
      · rw [runMoves_cons, move_step_clear threshold hexagons ds x y t hcond]
        dsimp only
        have hrest := (runMoves_latched threshold rest
          (clearConnectionsFor hexagons ds.id)
          { ds with
            startPositions := [(ds.id, x, y)]
            startX := x
            startY := y
            lastX := x
            lastY := y
            lastTime := t
            lastSpeed := moveSpeed ds x y t
            breakConnections := true } rfl).1
        rw [hrest, hcond.1]
        simp
      · rw [runMoves_cons, move_step_no_clear threshold hexagons ds x y t hcond]
        dsimp only
        rw [if_neg (by simp), Nat.zero_add]
        exact ih _ _

theorem clearConnectionsFor_props (l : List Hexagon) (i : String) :
    ∀ h ∈ clearConnectionsFor l i,
      i ∉ h.connections ∧ (h.id = i → h.connections = []) := by
  intro h hmem
  simp only [clearConnectionsFor, List.mem_map] at hmem
  obtain ⟨a, ha, rfl⟩ := hmem
  by_cases h1 : a.id = i
  · simp [h1]
  · by_cases h2 : i ∈ a.connections
    · refine ⟨?_, ?_⟩
      · simp [h1, h2, List.mem_filter]
      · intro hid
        simp [h1, h2] at hid
    · refine ⟨?_, ?_⟩
      · simp [h1, h2]
      · intro hid
        simp [h1, h2] at hid

theorem connProj_eq_mem {l₁ l₂ : List Hexagon} (he : connProj l₁ = connProj l₂)
    (h : Hexagon) (hm : h ∈ l₁) :
    ∃ h' ∈ l₂, h'.id = h.id ∧ h'.connections = h.connections := by
  have hmem : (h.id, h.connections) ∈ connProj l₂ := by
    rw [← he]
    exact List.mem_map_of_mem _ hm
  simp only [connProj, List.mem_map, Prod.mk.injEq] at hmem
  obtain ⟨h', hm', hid, hconn⟩ := hmem
  exact ⟨h', hm', hid, hconn⟩

theorem runMoves_clear_tail (threshold : ℝ) (hex1 : List Hexagon)
    (ds1 : DragState) (x y t : ℝ) (post : List (ℝ × ℝ × ℝ))
    (hcond : ds1.breakConnections = false ∧ t - ds1.startTime < 200 ∧
      moveSpeed ds1 x y t * 1000 > threshold) :
    (runMoves threshold hex1 ds1 ((x, y, t) :: post)).2.2 = 1 ∧
    connProj (runMoves threshold hex1 ds1 ((x, y, t) :: post)).1
      = connProj (clearConnectionsFor hex1 ds1.id) ∧
    (runMoves threshold hex1 ds1 ((x, y, t) :: post)).2.1.startPositions
      = [(ds1.id, x, y)] ∧
    (runMoves threshold hex1 ds1 ((x, y, t) :: post)).2.1.breakConnections
      = true := by
  rw [runMoves_cons, move_step_clear threshold hex1 ds1 x y t hcond]
  dsimp only
  obtain ⟨hpc, hpconn, hpbc, hpsp, hpid, hpst⟩ := runMoves_latched threshold post
    (clearConnectionsFor hex1 ds1.id)
    { ds1 with
      startPositions := [(ds1.id, x, y)]
      startX := x
      startY := y
      lastX := x
      lastY := y
      lastTime := t
      lastSpeed := moveSpeed ds1 x y t
      breakConnections := true } rfl
  refine ⟨?_, hpconn, by rw [hpsp], hpbc⟩
  rw [hpc, if_pos rfl]


/-- C5. Flick-detach threshold: in a drag whose move samples never exceed
`disconnectVelocityThreshold` (in px/s: speed × 1000), no step ever clears
connections and the id/connection structure of the board is untouched; a
drag clears at most once (the `breakConnections` latch); and at the first
sample whose velocity exceeds the threshold while the drag is younger than
200 ms, the dragged hexagon's connections are cleared on both endpoints —
the result is exactly `clearConnectionsFor` of the board — the clear count
of the whole drag is exactly 1, and the drag restarts at the current point
as a single-node drag. -/
theorem flick_detach (threshold : ℝ) (hexagons : List Hexagon) (ds : DragState)
    (events : List (ℝ × ℝ × ℝ)) (hbc : ds.breakConnections = false) :
    ((∀ pre x y t post, events = pre ++ (x, y, t) :: post →
        moveSpeed (runMoves threshold hexagons ds pre).2.1 x y t * 1000
          ≤ threshold) →
      (runMoves threshold hexagons ds events).2.2 = 0 ∧
      connProj (runMoves threshold hexagons ds events).1 = connProj hexagons) ∧
    (runMoves threshold hexagons ds events).2.2 ≤ 1 ∧
    (∀ pre x y t post, events = pre ++ (x, y, t) :: post →
      (runMoves threshold hexagons ds pre).2.2 = 0 →
      moveSpeed (runMoves threshold hexagons ds pre).2.1 x y t * 1000
        > threshold →
      t - ds.startTime < 200 →
      (runMoves threshold hexagons ds events).2.2 = 1 ∧
      connProj (runMoves threshold hexagons ds events).1
        = connProj (clearConnectionsFor hexagons ds.id) ∧
      (∀ h ∈ (runMoves threshold hexagons ds events).1,
        ds.id ∉ h.connections ∧ (h.id = ds.id → h.connections = [])) ∧
      (runMoves threshold hexagons ds events).2.1.startPositions
        = [(ds.id, x, y)] ∧
      (runMoves threshold hexagons ds events).2.1.breakConnections = true) := by
  refine ⟨?_, ?_, ?_⟩
  · intro hvel
    have hc := runMoves_no_clear threshold events hexagons ds hvel
    exact ⟨hc, (runMoves_count_zero threshold events hexagons ds hc).1⟩
  · have hle := runMoves_clears_le threshold events hexagons ds
    rw [hbc] at hle
    simpa using hle
  · intro pre x y t post hsplit h0 hgt h200
    obtain ⟨hconn₁, hbc₁, hsp₁, hid₁, hst₁⟩ :=
      runMoves_count_zero threshold pre hexagons ds h0
    have hcond : (runMoves threshold hexagons ds pre).2.1.breakConnections
          = false ∧
        t - (runMoves threshold hexagons ds pre).2.1.startTime < 200 ∧
        moveSpeed (runMoves threshold hexagons ds pre).2.1 x y t * 1000
          > threshold :=
      ⟨by rw [hbc₁, hbc], by rw [hst₁]; exact h200, hgt⟩
    obtain ⟨hc1, hconn2, hsp2, hbc2⟩ := runMoves_clear_tail threshold
      (runMoves threshold hexagons ds pre).1
      (runMoves threshold hexagons ds pre).2.1 x y t post hcond
    have happ := runMoves_append threshold pre ((x, y, t) :: post) hexagons ds
    have hconnfinal : connProj (runMoves threshold hexagons ds events).1
        = connProj (clearConnectionsFor hexagons ds.id) := by
      rw [hsplit, happ]
      dsimp only
      rw [hconn2, connProj_clear, connProj_clear, hconn₁, hid₁]
    refine ⟨?_, hconnfinal, ?_, ?_, ?_⟩
    · rw [hsplit, happ]
      dsimp only
      rw [h0, hc1]
    · intro h hm
      obtain ⟨h', hm', hid', hconn'⟩ := connProj_eq_mem hconnfinal h hm
      obtain ⟨hni, hcl⟩ := clearConnectionsFor_props hexagons ds.id h' hm'
      rw [← hconn']
      exact ⟨hni, fun hidh => hcl (by rw [hid', hidh])⟩
    · rw [hsplit, happ]
      dsimp only
      rw [hsp2, hid₁]
    · rw [hsplit, happ]
      dsimp only
      rw [hbc2]

def demoHexA : Hexagon :=
  { id := "a", number := 1, x := 0, y := 0, text := "", fillColor := "",
    connections := ["b"], content := none }

def demoHexB : Hexagon :=
  { id := "b", number := 2, x := 100, y := 0, text := "", fillColor := "",
    connections := ["a"], content := none }

def demoHexes : List Hexagon := [demoHexA, demoHexB]

def demoDrag : DragState :=
  { id := "a", startX := 0, startY := 0, startPositions := [("a", 0, 0)],
    lastX := 0, lastY := 0, lastTime := 0, lastSpeed := 0, startTime := 0,
    breakConnections := false }

theorem demo_moveSpeed_slow : moveSpeed demoDrag 0.1 0 10 * 1000 = 10 := by
  show Real.sqrt (((0.1:ℝ) - 0) ^ 2 + ((0:ℝ) - 0) ^ 2)
      / max 1 ((10:ℝ) - 0) * 1000 = 10
  have h1 : ((0.1:ℝ) - 0) ^ 2 + ((0:ℝ) - 0) ^ 2 = (0.1 : ℝ) ^ 2 := by norm_num
  rw [h1, Real.sqrt_sq (by norm_num : (0:ℝ) ≤ 0.1)]
  rw [show max 1 ((10:ℝ) - 0) = 10 by norm_num]
  norm_num

theorem demo_moveSpeed_fast : moveSpeed demoDrag 3 0 10 * 1000 = 300 := by
  show Real.sqrt (((3:ℝ) - 0) ^ 2 + ((0:ℝ) - 0) ^ 2)
      / max 1 ((10:ℝ) - 0) * 1000 = 300
  have h1 : ((3:ℝ) - 0) ^ 2 + ((0:ℝ) - 0) ^ 2 = (3 : ℝ) ^ 2 := by norm_num
  rw [h1, Real.sqrt_sq (by norm_num : (0:ℝ) ≤ 3)]
  rw [show max 1 ((10:ℝ) - 0) = 10 by norm_num]
  norm_num

/-- Witness for `flick_detach`: with threshold 150 px/s, a 0.1-px move in
10 ms (10 px/s) clears nothing, while a 3-px move in 10 ms (300 px/s)
within 10 ms of drag start clears exactly once and detaches the dragged
hexagon symmetrically. -/
theorem flick_detach_witness :
    (runMoves 150 demoHexes demoDrag [(0.1, 0, 10)]).2.2 = 0 ∧
    (runMoves 150 demoHexes demoDrag [(3, 0, 10)]).2.2 = 1 ∧
    connProj (runMoves 150 demoHexes demoDrag [(3, 0, 10)]).1
      = connProj (clearConnectionsFor demoHexes demoDrag.id) := by
  have hslow := (flick_detach 150 demoHexes demoDrag [(0.1, 0, 10)] rfl).1
  have hfast := (flick_detach 150 demoHexes demoDrag [(3, 0, 10)] rfl).2.2
    [] 3 0 10 [] rfl rfl
    (by
      show moveSpeed demoDrag 3 0 10 * 1000 > 150
      rw [demo_moveSpeed_fast]
      norm_num)
    (by
      show (10:ℝ) - demoDrag.startTime < 200
      show (10:ℝ) - 0 < 200
      norm_num)
  refine ⟨?_, hfast.1, hfast.2.1⟩
  refine (hslow ?_).1
  intro pre x y t post hsplit
  cases pre with
  | nil =>
      simp only [List.nil_append, List.cons.injEq, Prod.mk.injEq] at hsplit
      obtain ⟨⟨hx, hy, ht⟩, -⟩ := hsplit
      subst hx
      subst hy
      subst ht
      show moveSpeed demoDrag 0.1 0 10 * 1000 ≤ 150
      rw [demo_moveSpeed_slow]
      norm_num
  | cons a l =>
      simp at hsplit

/-! ## Snap-to-neighbor (`snapHexagonToNeighbors`): search specification -/

/-- The squared distance `dx*dx + dy*dy` used by the snap search. -/
def distSq (a b : Hexagon) : ℝ :=
  (a.x - b.x) * (a.x - b.x) + (a.y - b.y) * (a.y - b.y)

/-- The loop body of the snap search, as a named function. -/
noncomputable def fcStep (dragged : Hexagon) (draggedId : String) (s2 : ℝ)
    (acc : Option (ℕ × ℝ)) (p : ℕ × Hexagon) : Option (ℕ × ℝ) :=
  if p.2.id = draggedId then acc
  else
    let dx := dragged.x - p.2.x
    let dy := dragged.y - p.2.y
    let d2 := dx * dx + dy * dy
    match acc with
    | none => if d2 ≤ s2 then some (p.1, d2) else none
    | some (ci, best) =>
        if d2 ≤ s2 ∧ d2 < best then some (p.1, d2) else some (ci, best)

theorem findClosest_eq_fold (hexagons : List Hexagon) (dragged : Hexagon)
    (draggedId : String) (s2 : ℝ) :
    findClosest hexagons dragged draggedId s2
      = hexagons.enum.foldl (fcStep dragged draggedId s2) none := rfl

/-- What the snap-search fold guarantees after processing `procd`. -/
def FCInv (dragged : Hexagon) (draggedId : String) (s2 : ℝ)
    (procd : List (ℕ × Hexagon)) (acc : Option (ℕ × ℝ)) : Prop :=
  (acc = none →
    ∀ p ∈ procd, p.2.id ≠ draggedId → distSq dragged p.2 > s2) ∧
  (∀ ci d2, acc = some (ci, d2) →
    (∃ p ∈ procd, p.1 = ci ∧ p.2.id ≠ draggedId ∧ distSq dragged p.2 = d2) ∧
    d2 ≤ s2 ∧
    ∀ p ∈ procd, p.2.id ≠ draggedId → distSq dragged p.2 ≤ s2 →
      d2 ≤ distSq dragged p.2)

theorem fcStep_preserves (dragged : Hexagon) (draggedId : String) (s2 : ℝ)
    (procd : List (ℕ × Hexagon)) (acc : Option (ℕ × ℝ)) (p : ℕ × Hexagon)
    (h : FCInv dragged draggedId s2 procd acc) :
    FCInv dragged draggedId s2 (procd ++ [p])
      (fcStep dragged draggedId s2 acc p) := by
  obtain ⟨hn, hs⟩ := h
  by_cases hid : p.2.id = draggedId
  · rw [fcStep, if_pos hid]
    constructor
    · intro ha q hq hqid
      rcases List.mem_append.mp hq with hq | hq
      · exact hn ha q hq hqid
      · rw [List.mem_singleton.mp hq] at hqid
        exact absurd hid hqid
    · intro ci d2 ha
      obtain ⟨⟨q, hq, hq1, hq2, hq3⟩, hle, hmin⟩ := hs ci d2 ha
      refine ⟨⟨q, List.mem_append_left _ hq, hq1, hq2, hq3⟩, hle, ?_⟩
      intro r hr hrid hrle
      rcases List.mem_append.mp hr with hr | hr
      · exact hmin r hr hrid hrle
      · rw [List.mem_singleton.mp hr] at hrid
        exact absurd hid hrid
  · cases acc with
    | none =>
        rw [fcStep, if_neg hid]
        show FCInv dragged draggedId s2 (procd ++ [p])
          (if distSq dragged p.2 ≤ s2 then some (p.1, distSq dragged p.2)
           else none)
        by_cases hle : distSq dragged p.2 ≤ s2
        · rw [if_pos hle]
          constructor
          · intro ha
            exact absurd ha (by simp)
          · intro ci d2 ha
            obtain ⟨hci, hd⟩ := Prod.mk.injEq .. ▸ Option.some.inj ha
            subst hci
            subst hd
            refine ⟨⟨p, List.mem_append_right _ (List.mem_singleton_self p),
              rfl, hid, rfl⟩, hle, ?_⟩
            intro r hr hrid hrle
            rcases List.mem_append.mp hr with hr | hr
            · exact absurd hrle (not_le.mpr (hn rfl r hr hrid))
            · rw [List.mem_singleton.mp hr]
        · rw [if_neg hle]
          constructor
          · intro _ q hq hqid
            rcases List.mem_append.mp hq with hq | hq
            · exact hn rfl q hq hqid
            · rw [List.mem_singleton.mp hq]
              exact lt_of_not_le hle
          · intro ci d2 ha
            exact absurd ha (by simp)
    | some cb =>
        obtain ⟨ci, best⟩ := cb
        obtain ⟨⟨q, hq, hq1, hq2, hq3⟩, hble, hbmin⟩ := hs ci best rfl
        rw [fcStep, if_neg hid]
        show FCInv dragged draggedId s2 (procd ++ [p])
          (if distSq dragged p.2 ≤ s2 ∧ distSq dragged p.2 < best then
            some (p.1, distSq dragged p.2)
           else some (ci, best))
        by_cases hcond : distSq dragged p.2 ≤ s2 ∧ distSq dragged p.2 < best
        · rw [if_pos hcond]
          constructor
          · intro ha
            exact absurd ha (by simp)
          · intro ci' d2' ha
            obtain ⟨hci, hd⟩ := Prod.mk.injEq .. ▸ Option.some.inj ha
            subst hci
            subst hd
            refine ⟨⟨p, List.mem_append_right _ (List.mem_singleton_self p),
              rfl, hid, rfl⟩, hcond.1, ?_⟩
            intro r hr hrid hrle
            rcases List.mem_append.mp hr with hr | hr
            · exact le_trans (le_of_lt hcond.2) (hbmin r hr hrid hrle)
            · rw [List.mem_singleton.mp hr]
        · rw [if_neg hcond]
          constructor
          · intro ha
            exact absurd ha (by simp)
          · intro ci' d2' ha
            obtain ⟨hci, hd⟩ := Prod.mk.injEq .. ▸ Option.some.inj ha
            subst hci
            subst hd
            refine ⟨⟨q, List.mem_append_left _ hq, hq1, hq2, hq3⟩, hble, ?_⟩
            intro r hr hrid hrle
            rcases List.mem_append.mp hr with hr | hr
            · exact hbmin r hr hrid hrle
            · rw [List.mem_singleton.mp hr] at hrle ⊢
              rcases not_and_or.mp hcond with hc | hc
              · exact absurd hrle hc
              · exact le_of_not_lt hc

theorem fcFold_inv (dragged : Hexagon) (draggedId : String) (s2 : ℝ) :
    ∀ (l procd : List (ℕ × Hexagon)) (acc : Option (ℕ × ℝ)),
      FCInv dragged draggedId s2 procd acc →
      FCInv dragged draggedId s2 (procd ++ l)
        (l.foldl (fcStep dragged draggedId s2) acc) := by
  intro l
  induction l with
  | nil =>
      intro procd acc h
      simpa using h
  | cons p l' ih =>
      intro procd acc h
      rw [List.foldl_cons, List.append_cons]
      exact ih (procd ++ [p]) _
        (fcStep_preserves dragged draggedId s2 procd acc p h)

theorem findClosest_inv (hexagons : List Hexagon) (dragged : Hexagon)
    (draggedId : String) (s2 : ℝ) :
    FCInv dragged draggedId s2 hexagons.enum
      (findClosest hexagons dragged draggedId s2) := by
  rw [findClosest_eq_fold]
  have h0 : FCInv dragged draggedId s2 [] none := by
    constructor
    · intro _ q hq
      simp at hq
    · intro ci d2 ha
      exact absurd ha (by simp)
  simpa using fcFold_inv dragged draggedId s2 hexagons.enum [] none h0

theorem findClosest_none_spec {hexagons : List Hexagon} {dragged : Hexagon}
    {draggedId : String} {s2 : ℝ}
    (hfc : findClosest hexagons dragged draggedId s2 = none) :
    ∀ h ∈ hexagons, h.id ≠ draggedId → distSq dragged h > s2 := by
  intro h hm hid
  obtain ⟨j, hj⟩ := List.mem_iff_get.mp hm
  have hpmem : (j.val, h) ∈ hexagons.enum := by
    rw [List.mk_mem_enum_iff_get?, List.get?_eq_get j.isLt, hj]
  exact (findClosest_inv hexagons dragged draggedId s2).1 hfc (j.val, h)
    hpmem hid

theorem findClosest_some_spec {hexagons : List Hexagon} {dragged : Hexagon}
    {draggedId : String} {s2 : ℝ} {ci : ℕ} {d2 : ℝ}
    (hfc : findClosest hexagons dragged draggedId s2 = some (ci, d2)) :
    ∃ hci : ci < hexagons.length,
      (hexagons.get ⟨ci, hci⟩).id ≠ draggedId ∧
      distSq dragged (hexagons.get ⟨ci, hci⟩) = d2 ∧
      d2 ≤ s2 ∧
      ∀ h ∈ hexagons, h.id ≠ draggedId → distSq dragged h ≤ s2 →
        d2 ≤ distSq dragged h := by
  obtain ⟨⟨p, hp, hp1, hp2, hp3⟩, hle, hmin⟩ :=
    (findClosest_inv hexagons dragged draggedId s2).2 ci d2 hfc
  have hget : hexagons.get? p.1 = some p.2 := by
    rw [← List.mk_mem_enum_iff_get?]
    exact hp
  have hlt : p.1 < hexagons.length := List.get?_eq_some.mp hget |>.1
  have hgeteq : hexagons.get ⟨p.1, hlt⟩ = p.2 := by
    have := List.get?_eq_some.mp hget
    obtain ⟨hl, hg⟩ := this
    exact hg
  subst hp1
  refine ⟨hlt, ?_, ?_, hle, ?_⟩
  · rw [hgeteq]
    exact hp2
  · rw [hgeteq]
    exact hp3
  · intro h hm hid hhle
    obtain ⟨j, hj⟩ := List.mem_iff_get.mp hm
    have hpmem : (j.val, h) ∈ hexagons.enum := by
      rw [List.mk_mem_enum_iff_get?, List.get?_eq_get j.isLt, hj]
    exact hmin (j.val, h) hpmem hid hhle

theorem mem_insertUnique (l : List String) (y x : String) :
    x ∈ insertUnique l y ↔ x ∈ l ∨ x = y := by
  unfold insertUnique
  by_cases hy : y ∈ l
  · rw [if_pos hy]
    constructor
    · exact fun h => Or.inl h
    · rintro (h | rfl)
      · exact h
      · exact hy
  · rw [if_neg hy]
    simp

theorem nodup_insertUnique (l : List String) (y : String) (h : l.Nodup) :
    (insertUnique l y).Nodup := by
  unfold insertUnique
  by_cases hy : y ∈ l
  · rwa [if_pos hy]
  · rw [if_neg hy]
    refine List.Nodup.append h (List.nodup_singleton y) ?_
    intro a hal hay
    rw [List.mem_singleton.mp hay] at hal
    exact hy hal

theorem foldl_insertUnique_mem (x : String) :
    ∀ (l acc : List String),
      (x ∈ l.foldl insertUnique acc ↔ x ∈ acc ∨ x ∈ l) := by
  intro l
  induction l with
  | nil => simp
  | cons a t ih =>
      intro acc
      rw [List.foldl_cons, ih]
      rw [mem_insertUnique]
      constructor
      · rintro ((h | h) | h)
        · exact Or.inl h
        · exact Or.inr (by simp [h])
        · exact Or.inr (by simp [h])
      · rintro (h | h)
        · exact Or.inl (Or.inl h)
        · rcases List.mem_cons.mp h with h | h
          · exact Or.inl (Or.inr h)
          · exact Or.inr h

theorem mem_jsDedup (l : List String) (x : String) :
    x ∈ jsDedup l ↔ x ∈ l := by
  unfold jsDedup
  rw [foldl_insertUnique_mem]
  simp

theorem foldl_insertUnique_of_disjoint :
    ∀ (l acc : List String), l.Nodup → (∀ x ∈ l, x ∉ acc) →
      l.foldl insertUnique acc = acc ++ l := by
  intro l
  induction l with
  | nil => simp
  | cons a t ih =>
      intro acc hnd hdis
      rw [List.foldl_cons]
      have ha : insertUnique acc a = acc ++ [a] := by
        unfold insertUnique
        rw [if_neg (hdis a (by simp))]
      rw [ha, ih (acc ++ [a]) (List.nodup_cons.mp hnd).2]
      · simp
      · intro x hx
        rw [List.mem_append, List.mem_singleton]
        rintro (h | rfl)
        · exact hdis x (by simp [hx]) h
        · exact (List.nodup_cons.mp hnd).1 hx

theorem jsDedup_eq_self (l : List String) (h : l.Nodup) : jsDedup l = l := by
  unfold jsDedup
  rw [foldl_insertUnique_of_disjoint l [] h (by simp)]
  simp

theorem inj_on_hexId {hexagons : List Hexagon}
    (hnodup : (hexagons.map (·.id)).Nodup) :
    ∀ a ∈ hexagons, ∀ b ∈ hexagons, a.id = b.id → a = b := by
  intro a ha b hb hab
  exact List.inj_on_of_nodup_map hnodup ha hb hab

theorem snap_eq_of_no_dragged (hexagons : List Hexagon) (draggedId : String)
    (s s2 : ℝ)
    (h : hexagons.findIdx? (fun hex => hex.id == draggedId) = none) :
    snapHexagonToNeighbors hexagons draggedId s s2 = hexagons := by
  simp only [snapHexagonToNeighbors, h]

theorem snap_eq_of_no_closest (hexagons : List Hexagon) (draggedId : String)
    (s s2 : ℝ) (di : ℕ)
    (h1 : hexagons.findIdx? (fun hex => hex.id == draggedId) = some di)
    (h2 : findClosest hexagons (hexagons.getD di default) draggedId s2
      = none) :
    snapHexagonToNeighbors hexagons draggedId s s2 = hexagons := by
  simp only [snapHexagonToNeighbors, h1, h2]

theorem snap_eq_of_closest (hexagons : List Hexagon) (draggedId : String)
    (s s2 : ℝ) (di ci : ℕ) (d2 : ℝ)
    (h1 : hexagons.findIdx? (fun hex => hex.id == draggedId) = some di)
    (h2 : findClosest hexagons (hexagons.getD di default) draggedId s2
      = some (ci, d2)) :
    snapHexagonToNeighbors hexagons draggedId s s2
      = (hexagons.set di
          { hexagons.getD di default with
            x := (hexagons.getD ci default).x
              + Real.cos (atan2
                  ((hexagons.getD di default).y - (hexagons.getD ci default).y)
                  ((hexagons.getD di default).x - (hexagons.getD ci default).x))
                * s
            y := (hexagons.getD ci default).y
              + Real.sin (atan2
                  ((hexagons.getD di default).y - (hexagons.getD ci default).y)
                  ((hexagons.getD di default).x - (hexagons.getD ci default).x))
                * s
            connections :=
              insertUnique (jsDedup (hexagons.getD di default).connections)
                (hexagons.getD ci default).id }).set ci
          { hexagons.getD ci default with
            connections :=
              insertUnique (jsDedup (hexagons.getD ci default).connections)
                (hexagons.getD di default).id } := by
  simp only [snapHexagonToNeighbors, h1, h2]

theorem sqrt_cos_sin_dist (θ s : ℝ) (hs : 0 ≤ s) :
    Real.sqrt ((Real.cos θ * s) ^ 2 + (Real.sin θ * s) ^ 2) = s := by
  have h : (Real.cos θ * s) ^ 2 + (Real.sin θ * s) ^ 2 = s ^ 2 := by
    calc (Real.cos θ * s) ^ 2 + (Real.sin θ * s) ^ 2
        = (Real.sin θ ^ 2 + Real.cos θ ^ 2) * s ^ 2 := by ring
      _ = s ^ 2 := by rw [Real.sin_sq_add_cos_sq, one_mul]
  rw [h, Real.sqrt_sq hs]

theorem cos_sin_atan2 (y x : ℝ) (h : ¬(x = 0 ∧ y = 0)) :
    Real.cos (atan2 y x) = x / Real.sqrt (x * x + y * y) ∧
    Real.sin (atan2 y x) = y / Real.sqrt (x * x + y * y) := by
  have hz : (⟨x, y⟩ : ℂ) ≠ 0 := by
    intro hc
    exact h ⟨congrArg Complex.re hc, congrArg Complex.im hc⟩
  have habs : Complex.abs ⟨x, y⟩ = Real.sqrt (x * x + y * y) := by
    rw [Complex.abs_apply, Complex.normSq_mk]
  constructor
  · rw [atan2, Complex.cos_arg hz, habs]
  · rw [atan2, Complex.sin_arg, habs]

theorem getD_default_eq_get (l : List Hexagon) (i : ℕ) (h : i < l.length) :
    l.getD i default = l.get ⟨i, h⟩ := by
  rw [List.getD_eq_getElem?_getD, List.getElem?_eq_getElem h]
  rfl

/-- C6. Snap-to-neighbor postcondition: on release of a drag that did not
break connections, if no other hexagon lies within `snapDistance` (squared
comparison) the list is returned unchanged; otherwise a nearest in-range
hexagon is chosen (its squared distance is minimal among in-range
candidates), the dragged hexagon is repositioned exactly `snapDistance`
from it along the angle `atan2` of their center offset — on the ray from
the neighbor through the dragged hexagon's old position whenever the two
positions differ — and the connection is recorded symmetrically on both
hexagons, idempotently: for duplicate-free connection lists, re-adding an
existing connection changes nothing, and a new one is appended. All other
hexagons keep their entries (only indices `di`, `ci` are rewritten). -/
theorem snap_to_neighbor (hexagons : List Hexagon) (draggedId : String)
    (snapDistance : ℝ) (dragged : Hexagon)
    (hnodup : (hexagons.map (·.id)).Nodup)
    (hmem : dragged ∈ hexagons) (hdid : dragged.id = draggedId)
    (hs : 0 ≤ snapDistance) :
    ((∀ h ∈ hexagons, h.id ≠ draggedId →
        distSq dragged h > snapDistance * snapDistance) →
      snapHexagonToNeighbors hexagons draggedId snapDistance
        (snapDistance * snapDistance) = hexagons) ∧
    (∀ hex0 ∈ hexagons, hex0.id ≠ draggedId →
      distSq dragged hex0 ≤ snapDistance * snapDistance →
      ∃ di ci, ∃ hdi : di < hexagons.length, ∃ hci : ci < hexagons.length,
      ∃ closest : Hexagon,
        hexagons.get ⟨di, hdi⟩ = dragged ∧
        hexagons.get ⟨ci, hci⟩ = closest ∧
        di ≠ ci ∧
        closest.id ≠ draggedId ∧
        distSq dragged closest ≤ snapDistance * snapDistance ∧
        (∀ other ∈ hexagons, other.id ≠ draggedId →
          distSq dragged other ≤ snapDistance * snapDistance →
          distSq dragged closest ≤ distSq dragged other) ∧
        (∃ newX newY,
          newX = closest.x + Real.cos (atan2 (dragged.y - closest.y)
              (dragged.x - closest.x)) * snapDistance ∧
          newY = closest.y + Real.sin (atan2 (dragged.y - closest.y)
              (dragged.x - closest.x)) * snapDistance ∧
          snapHexagonToNeighbors hexagons draggedId snapDistance
              (snapDistance * snapDistance)
            = (hexagons.set di
                { dragged with
                  x := newX
                  y := newY
                  connections := insertUnique (jsDedup dragged.connections)
                    closest.id }).set ci
                { closest with
                  connections := insertUnique (jsDedup closest.connections)
                    dragged.id } ∧
          Real.sqrt ((newX - closest.x) ^ 2 + (newY - closest.y) ^ 2)
            = snapDistance ∧
          (¬(dragged.x = closest.x ∧ dragged.y = closest.y) →
            newX = closest.x
              + snapDistance / Real.sqrt (distSq dragged closest)
                * (dragged.x - closest.x) ∧
            newY = closest.y
              + snapDistance / Real.sqrt (distSq dragged closest)
                * (dragged.y - closest.y))) ∧
        closest.id ∈ insertUnique (jsDedup dragged.connections) closest.id ∧
        dragged.id ∈ insertUnique (jsDedup closest.connections) dragged.id ∧
        (dragged.connections.Nodup →
          (closest.id ∈ dragged.connections →
            insertUnique (jsDedup dragged.connections) closest.id
              = dragged.connections) ∧
          (closest.id ∉ dragged.connections →
            insertUnique (jsDedup dragged.connections) closest.id
              = dragged.connections ++ [closest.id]))) := by
  have hbeq : (fun hex : Hexagon => hex.id == draggedId) dragged = true := by
    simp [hdid]
  have hfi := List.findIdx?_eq_some_of_exists
    (p := fun hex : Hexagon => hex.id == draggedId) ⟨dragged, hmem, hbeq⟩
  have hdilt : hexagons.findIdx (fun hex => hex.id == draggedId)
      < hexagons.length :=
    List.findIdx_lt_length_of_exists ⟨dragged, hmem, hbeq⟩
  have hdid2 : (hexagons.get
      ⟨hexagons.findIdx (fun hex => hex.id == draggedId), hdilt⟩).id
      = draggedId := by
    have := @List.findIdx_getElem _ (fun hex : Hexagon => hex.id == draggedId)
      hexagons hdilt
    simpa using this
  have hdeq : hexagons.get
      ⟨hexagons.findIdx (fun hex => hex.id == draggedId), hdilt⟩ = dragged :=
    inj_on_hexId hnodup _ (hexagons.get_mem _ _) dragged hmem
      (by rw [hdid2, hdid])
  have hgetD : hexagons.getD
      (hexagons.findIdx (fun hex => hex.id == draggedId)) default = dragged := by
    rw [getD_default_eq_get hexagons _ hdilt, hdeq]
  constructor
  · intro hfar
    have hfc : findClosest hexagons
        (hexagons.getD (hexagons.findIdx (fun hex => hex.id == draggedId))
          default) draggedId (snapDistance * snapDistance) = none := by
      rw [hgetD]
      cases hfc' : findClosest hexagons dragged draggedId
          (snapDistance * snapDistance) with
      | none => rfl
      | some cd =>
          obtain ⟨ci, d2⟩ := cd
          obtain ⟨hci, hcid, hceq, hcle, -⟩ := findClosest_some_spec hfc'
          exact absurd (hceq ▸ hcle)
            (not_le.mpr (hfar _ (hexagons.get_mem _ _) hcid))
    exact snap_eq_of_no_closest hexagons draggedId snapDistance
      (snapDistance * snapDistance) _ hfi hfc
  · intro hex0 hmem0 hid0 hle0
    cases hfc : findClosest hexagons dragged draggedId
        (snapDistance * snapDistance) with
    | none =>
        exact absurd (findClosest_none_spec hfc hex0 hmem0 hid0)
          (not_lt.mpr hle0)
    | some cd =>
        obtain ⟨ci, d2⟩ := cd
        obtain ⟨hci, hcid, hceq, hcle, hcmin⟩ := findClosest_some_spec hfc
        have hfc' : findClosest hexagons
            (hexagons.getD (hexagons.findIdx (fun hex => hex.id == draggedId))
              default) draggedId (snapDistance * snapDistance)
            = some (ci, d2) := by
          rw [hgetD]
          exact hfc
        have hsnap := snap_eq_of_closest hexagons draggedId snapDistance
          (snapDistance * snapDistance) _ ci d2 hfi hfc'
        rw [hgetD, getD_default_eq_get hexagons ci hci] at hsnap
        refine ⟨hexagons.findIdx (fun hex => hex.id == draggedId), ci, hdilt,
          hci, hexagons.get ⟨ci, hci⟩, hdeq, rfl, ?_, hcid, hceq ▸ hcle, ?_,
          ?_, ?_, ?_, ?_⟩
        · intro hdc
          subst hdc
          exact hcid hdid2
        · intro other hmo hido hleo
          rw [hceq]
          exact hcmin other hmo hido hleo
        · refine ⟨_, _, rfl, rfl, hsnap, ?_, ?_⟩
          · have hx : (hexagons.get ⟨ci, hci⟩).x
                + Real.cos (atan2 (dragged.y - (hexagons.get ⟨ci, hci⟩).y)
                    (dragged.x - (hexagons.get ⟨ci, hci⟩).x)) * snapDistance
                - (hexagons.get ⟨ci, hci⟩).x
                = Real.cos (atan2 (dragged.y - (hexagons.get ⟨ci, hci⟩).y)
                    (dragged.x - (hexagons.get ⟨ci, hci⟩).x)) * snapDistance :=
              by ring
            have hy : (hexagons.get ⟨ci, hci⟩).y
                + Real.sin (atan2 (dragged.y - (hexagons.get ⟨ci, hci⟩).y)
                    (dragged.x - (hexagons.get ⟨ci, hci⟩).x)) * snapDistance
                - (hexagons.get ⟨ci, hci⟩).y
                = Real.sin (atan2 (dragged.y - (hexagons.get ⟨ci, hci⟩).y)
                    (dragged.x - (hexagons.get ⟨ci, hci⟩).x)) * snapDistance :=
              by ring
            rw [hx, hy]
            exact sqrt_cos_sin_dist _ snapDistance hs
          · intro hne
            have hne' : ¬(dragged.x - (hexagons.get ⟨ci, hci⟩).x = 0 ∧
                dragged.y - (hexagons.get ⟨ci, hci⟩).y = 0) := by
              intro hc
              exact hne ⟨sub_eq_zero.mp hc.1, sub_eq_zero.mp hc.2⟩
            obtain ⟨hcos, hsin⟩ := cos_sin_atan2
              (dragged.y - (hexagons.get ⟨ci, hci⟩).y)
              (dragged.x - (hexagons.get ⟨ci, hci⟩).x) hne'
            constructor
            · rw [hcos]
              unfold distSq
              ring
            · rw [hsin]
              unfold distSq
              ring
        · rw [mem_insertUnique]
          exact Or.inr rfl
        · rw [mem_insertUnique]
          exact Or.inr rfl
        · intro hnd
          rw [jsDedup_eq_self dragged.connections hnd]
          constructor
          · intro hin
            unfold insertUnique
            rw [if_pos hin]
          · intro hout
            unfold insertUnique
            rw [if_neg hout]

/-- Witness for `snap_to_neighbor`: dragging hexagon `"a"` with hexagon
`"b"` 100 px away and a snap distance of 110 px. -/
theorem snap_to_neighbor_witness :
    ∃ di ci, ∃ hdi : di < demoHexes.length, ∃ hci : ci < demoHexes.length,
    ∃ closest : Hexagon,
      demoHexes.get ⟨di, hdi⟩ = demoHexA ∧
      demoHexes.get ⟨ci, hci⟩ = closest ∧
      di ≠ ci ∧
      closest.id ≠ "a" ∧
      distSq demoHexA closest ≤ 110 * 110 ∧
      (∀ other ∈ demoHexes, other.id ≠ "a" →
        distSq demoHexA other ≤ 110 * 110 →
        distSq demoHexA closest ≤ distSq demoHexA other) ∧
      (∃ newX newY,
        newX = closest.x + Real.cos (atan2 (demoHexA.y - closest.y)
            (demoHexA.x - closest.x)) * 110 ∧
        newY = closest.y + Real.sin (atan2 (demoHexA.y - closest.y)
            (demoHexA.x - closest.x)) * 110 ∧
        snapHexagonToNeighbors demoHexes "a" 110 (110 * 110)
          = (demoHexes.set di
              { demoHexA with
                x := newX
                y := newY
                connections := insertUnique (jsDedup demoHexA.connections)
                  closest.id }).set ci
              { closest with
                connections := insertUnique (jsDedup closest.connections)
                  demoHexA.id } ∧
        Real.sqrt ((newX - closest.x) ^ 2 + (newY - closest.y) ^ 2) = 110 ∧
        (¬(demoHexA.x = closest.x ∧ demoHexA.y = closest.y) →
          newX = closest.x + 110 / Real.sqrt (distSq demoHexA closest)
            * (demoHexA.x - closest.x) ∧
          newY = closest.y + 110 / Real.sqrt (distSq demoHexA closest)
            * (demoHexA.y - closest.y))) ∧
      closest.id ∈ insertUnique (jsDedup demoHexA.connections) closest.id ∧
      demoHexA.id ∈ insertUnique (jsDedup closest.connections) demoHexA.id ∧
      (demoHexA.connections.Nodup →
        (closest.id ∈ demoHexA.connections →
          insertUnique (jsDedup demoHexA.connections) closest.id
            = demoHexA.connections) ∧
        (closest.id ∉ demoHexA.connections →
          insertUnique (jsDedup demoHexA.connections) closest.id
            = demoHexA.connections ++ [closest.id])) :=
  (snap_to_neighbor demoHexes "a" 110 demoHexA (by decide)
      (by simp [demoHexes]) rfl (by norm_num)).2
    demoHexB (by simp [demoHexes]) (by decide)
    (by norm_num [distSq, demoHexA, demoHexB])

/-! ## Connection symmetry invariant (C1)

Board states reachable from a fresh board (`{ hexagons: [] }`) by the
structural operations. `crypto.randomUUID()` draws are modelled by id
parameters constrained to be fresh and pairwise distinct. -/

def idsOf (hexagons : List Hexagon) : List String :=
  hexagons.map (·.id)

/-- Connections are symmetric: `B.id ∈ A.connections ↔ A.id ∈ B.connections`. -/
def ConnSymm (hexagons : List Hexagon) : Prop :=
  ∀ a ∈ hexagons, ∀ b ∈ hexagons,
    (b.id ∈ a.connections ↔ a.id ∈ b.connections)

/-- No hexagon lists its own id among its connections. -/
def NoSelfLoop (hexagons : List Hexagon) : Prop :=
  ∀ a ∈ hexagons, a.id ∉ a.connections

/-- Every connection id refers to a hexagon present on the board. -/
def ConnClosed (hexagons : List Hexagon) : Prop :=
  ∀ a ∈ hexagons, ∀ c ∈ a.connections, c ∈ idsOf hexagons

/-- The inductive invariant: distinct ids, symmetric, loop-free, closed. -/
def BoardInv (hexagons : List Hexagon) : Prop :=
  (idsOf hexagons).Nodup ∧ ConnSymm hexagons ∧ NoSelfLoop hexagons ∧
    ConnClosed hexagons

/-- Board states reachable by the structural operations of the editor,
starting from the empty board created by `handleCreateBoard`. -/
inductive Reachable : List Hexagon → Prop where
  | empty : Reachable []
  | snap (s : List Hexagon) (draggedId : String) (sd sd2 : ℝ) :
      Reachable s → Reachable (snapHexagonToNeighbors s draggedId sd sd2)
  | flick (s : List Hexagon) (id : String) :
      Reachable s → Reachable (clearConnectionsFor s id)
  | disconnect (s : List Hexagon) (sel : List String) :
      Reachable s → Reachable (handleDisconnectSelected s sel)
  | delete (s : List Hexagon) (sel : List String) :
      Reachable s → Reachable (handleDeleteSelected s sel)
  | dup (s : List Hexagon) (sel : List String) (newIds : List String) :
      Reachable s → newIds.Nodup → (∀ nid ∈ newIds, nid ∉ idsOf s) →
      Reachable (handleDuplicateSelected s sel newIds)
  | add (s : List Hexagon) (count : ℕ) (color : String) (wx wy : ℝ)
      (newIds : ℕ → String) :
      Reachable s →
      (∀ i < count, ∀ j < count, i ≠ j → newIds i ≠ newIds j) →
      (∀ i < count, newIds i ∉ idsOf s) →
      Reachable (handleAddHexagon s count color wx wy newIds)

theorem ids_clearConnectionsFor (l : List Hexagon) (i : String) :
    idsOf (clearConnectionsFor l i) = idsOf l := by
  unfold idsOf clearConnectionsFor
  rw [List.map_map]
  apply List.map_congr_left
  intro a _
  by_cases h1 : a.id = i
  · simp [h1]
  · by_cases h2 : i ∈ a.connections <;> simp [h1, h2]

theorem clearFn_spec (l : List Hexagon) (i : String) :
    ∀ a' ∈ clearConnectionsFor l i, ∃ a ∈ l, a'.id = a.id ∧
      a'.connections = (if a.id = i then [] else a.connections.filter (· ≠ i)) := by
  intro a' ha'
  simp only [clearConnectionsFor, List.mem_map] at ha'
  obtain ⟨a, ha, rfl⟩ := ha'
  refine ⟨a, ha, ?_, ?_⟩
  · by_cases h1 : a.id = i
    · simp [h1]
    · by_cases h2 : i ∈ a.connections <;> simp [h1, h2]
  · by_cases h1 : a.id = i
    · simp [h1]
    · by_cases h2 : i ∈ a.connections
      · simp [h1, h2]
      · simp only [h1, h2, if_neg, if_false]
        rw [List.filter_eq_self.mpr]
        intro c hc
        have hcne : c ≠ i := fun hceq => h2 (hceq ▸ hc)
        simp [hcne]

theorem boardInv_clear (l : List Hexagon) (i : String) (h : BoardInv l) :
    BoardInv (clearConnectionsFor l i) := by
  obtain ⟨hnd, hsym, hnsl, hcc⟩ := h
  refine ⟨?_, ?_, ?_, ?_⟩
  · rw [ids_clearConnectionsFor]
    exact hnd
  · intro a' ha' b' hb'
    obtain ⟨a, ha, haid, haconn⟩ := clearFn_spec l i a' ha'
    obtain ⟨b, hb, hbid, hbconn⟩ := clearFn_spec l i b' hb'
    rw [haid, hbid, haconn, hbconn]
    by_cases h1 : a.id = i
    · rw [if_pos h1]
      by_cases h2 : b.id = i
      · rw [if_pos h2]
        simp
      · rw [if_neg h2]
        constructor
        · intro hx
          simp at hx
        · intro hx
          rw [List.mem_filter, h1] at hx
          simp at hx
    · rw [if_neg h1]
      by_cases h2 : b.id = i
      · rw [if_pos h2]
        constructor
        · intro hx
          rw [List.mem_filter, h2] at hx
          simp at hx
        · intro hx
          simp at hx
      · rw [if_neg h2, List.mem_filter, List.mem_filter]
        constructor
        · rintro ⟨hm, -⟩
          exact ⟨(hsym a ha b hb).mp hm, by simp [h1]⟩
        · rintro ⟨hm, -⟩
          exact ⟨(hsym a ha b hb).mpr hm, by simp [h2]⟩
  · intro a' ha'
    obtain ⟨a, ha, haid, haconn⟩ := clearFn_spec l i a' ha'
    rw [haid, haconn]
    by_cases h1 : a.id = i
    · simp [h1]
    · rw [if_neg h1]
      intro hx
      rw [List.mem_filter] at hx
      exact hnsl a ha hx.1
  · intro a' ha' c hc
    obtain ⟨a, ha, haid, haconn⟩ := clearFn_spec l i a' ha'
    rw [ids_clearConnectionsFor]
    rw [haconn] at hc
    by_cases h1 : a.id = i
    · rw [if_pos h1] at hc
      simp at hc
    · rw [if_neg h1] at hc
      rw [List.mem_filter] at hc
      exact hcc a ha c hc.1

theorem boardInv_disconnect (sel : List String) :
    ∀ (l : List Hexagon), BoardInv l →
      BoardInv (handleDisconnectSelected l sel) := by
  unfold handleDisconnectSelected
  induction sel with
  | nil =>
      intro l h
      exact h
  | cons s t ih =>
      intro l h
      rw [List.foldl_cons]
      exact ih _ (boardInv_clear l s h)

theorem delFn_spec (l : List Hexagon) (sel : List String) :
    ∀ a' ∈ handleDeleteSelected l sel, ∃ a ∈ l, a.id ∉ sel ∧
      a'.id = a.id ∧ a'.connections = a.connections.filter (· ∉ sel) := by
  intro a' ha'
  simp only [handleDeleteSelected, List.mem_map, List.mem_filter] at ha'
  obtain ⟨a, ⟨ha, hasel⟩, rfl⟩ := ha'
  exact ⟨a, ha, by simpa using hasel, rfl, rfl⟩

theorem ids_delete_sublist (l : List Hexagon) (sel : List String) :
    (idsOf (handleDeleteSelected l sel)).Sublist (idsOf l) := by
  unfold idsOf handleDeleteSelected
  rw [List.map_map]
  have h1 : (List.map ((fun h => h.id) ∘ fun hex =>
      { hex with connections := hex.connections.filter (· ∉ sel) })
      (l.filter (fun hex => hex.id ∉ sel)))
      = List.map (·.id) (l.filter (fun hex => hex.id ∉ sel)) := by
    apply List.map_congr_left
    intro a _
    rfl
  rw [h1]
  exact (List.filter_sublist l).map _

theorem mem_delete_of_id (l : List Hexagon) (sel : List String) (c : String)
    (hc : c ∈ idsOf l) (hcs : c ∉ sel) :
    c ∈ idsOf (handleDeleteSelected l sel) := by
  unfold idsOf at hc ⊢
  rw [List.mem_map] at hc
  obtain ⟨hex, hhex, rfl⟩ := hc
  rw [List.mem_map]
  refine ⟨{ hex with connections := hex.connections.filter (· ∉ sel) }, ?_, rfl⟩
  simp only [handleDeleteSelected, List.mem_map, List.mem_filter]
  exact ⟨hex, ⟨hhex, by simpa using hcs⟩, rfl⟩

theorem boardInv_delete (l : List Hexagon) (sel : List String)
    (h : BoardInv l) : BoardInv (handleDeleteSelected l sel) := by
  obtain ⟨hnd, hsym, hnsl, hcc⟩ := h
  refine ⟨?_, ?_, ?_, ?_⟩
  · exact (ids_delete_sublist l sel).nodup hnd
  · intro a' ha' b' hb'
    obtain ⟨a, ha, hans, haid, haconn⟩ := delFn_spec l sel a' ha'
    obtain ⟨b, hb, hbns, hbid, hbconn⟩ := delFn_spec l sel b' hb'
    rw [haid, hbid, haconn, hbconn, List.mem_filter, List.mem_filter]
    constructor
    · rintro ⟨hm, -⟩
      exact ⟨(hsym a ha b hb).mp hm, by simpa using hans⟩
    · rintro ⟨hm, -⟩
      exact ⟨(hsym a ha b hb).mpr hm, by simpa using hbns⟩
  · intro a' ha'
    obtain ⟨a, ha, hans, haid, haconn⟩ := delFn_spec l sel a' ha'
    rw [haid, haconn]
    intro hx
    rw [List.mem_filter] at hx
    exact hnsl a ha hx.1
  · intro a' ha' c hc
    obtain ⟨a, ha, hans, haid, haconn⟩ := delFn_spec l sel a' ha'
    rw [haconn] at hc
    rw [List.mem_filter] at hc
    exact mem_delete_of_id l sel c (hcc a ha c hc.1) (by simpa using hc.2)

theorem map_snd_zip_sublist {α β : Type _} :
    ∀ (l₁ : List α) (l₂ : List β), ((l₁.zip l₂).map Prod.snd).Sublist l₂ := by
  intro l₁
  induction l₁ with
  | nil =>
      intro l₂
      simp
  | cons a t ih =>
      intro l₂
      cases l₂ with
      | nil => simp
      | cons b t₂ =>
          rw [List.zip_cons_cons, List.map_cons]
          exact (ih t₂).cons₂ b

theorem dup_clone_spec (l : List Hexagon) (sel : List String)
    (newIds : List String) :
    ∀ a' ∈ handleDuplicateSelected l sel newIds,
      a' ∈ l ∨ (a'.connections = [] ∧ a'.id ∈ newIds) := by
  intro a' ha'
  simp only [handleDuplicateSelected, List.mem_append] at ha'
  rcases ha' with ha' | ha'
  · exact Or.inl ha'
  · rw [List.mem_map] at ha'
    obtain ⟨p, hp, rfl⟩ := ha'
    exact Or.inr ⟨rfl, (List.of_mem_zip hp).2⟩

theorem ids_dup (l : List Hexagon) (sel : List String) (newIds : List String) :
    idsOf (handleDuplicateSelected l sel newIds)
      = idsOf l ++ ((l.filter (fun hex => hex.id ∈ sel)).zip newIds).map
          Prod.snd := by
  unfold idsOf handleDuplicateSelected
  rw [List.map_append, List.map_map]
  rfl

theorem boardInv_dup (l : List Hexagon) (sel : List String)
    (newIds : List String) (h : BoardInv l) (hnids : newIds.Nodup)
    (hfresh : ∀ nid ∈ newIds, nid ∉ idsOf l) :
    BoardInv (handleDuplicateSelected l sel newIds) := by
  obtain ⟨hnd, hsym, hnsl, hcc⟩ := h
  have hsub := map_snd_zip_sublist (l.filter (fun hex => hex.id ∈ sel)) newIds
  have hclone_not_conn : ∀ a ∈ l, ∀ nid ∈ newIds, nid ∉ a.connections := by
    intro a ha nid hnid hmem
    exact hfresh nid hnid (hcc a ha nid hmem)
  refine ⟨?_, ?_, ?_, ?_⟩
  · rw [ids_dup]
    refine List.Nodup.append hnd (hsub.nodup hnids) ?_
    intro x hx hx2
    exact hfresh x (hsub.mem hx2) hx
  · intro a' ha' b' hb'
    rcases dup_clone_spec l sel newIds a' ha' with ha2 | ⟨hac, hai⟩
    · rcases dup_clone_spec l sel newIds b' hb' with hb2 | ⟨hbc, hbi⟩
      · exact hsym a' ha2 b' hb2
      · constructor
        · intro hx
          exact absurd hx (hclone_not_conn a' ha2 b'.id hbi)
        · intro hx
          rw [hbc] at hx
          simp at hx
    · rcases dup_clone_spec l sel newIds b' hb' with hb2 | ⟨hbc, hbi⟩
      · constructor
        · intro hx
          rw [hac] at hx
          simp at hx
        · intro hx
          exact absurd hx (hclone_not_conn b' hb2 a'.id hai)
      · rw [hac, hbc]
        simp
  · intro a' ha'
    rcases dup_clone_spec l sel newIds a' ha' with ha2 | ⟨hac, -⟩
    · exact hnsl a' ha2
    · rw [hac]
      simp
  · intro a' ha' c hc
    rcases dup_clone_spec l sel newIds a' ha' with ha2 | ⟨hac, -⟩
    · rw [ids_dup, List.mem_append]
      exact Or.inl (hcc a' ha2 c hc)
    · rw [hac] at hc
      simp at hc

theorem add_member_spec (l : List Hexagon) (count : ℕ) (color : String)
    (wx wy : ℝ) (newIds : ℕ → String) :
    ∀ a' ∈ handleAddHexagon l count color wx wy newIds,
      a' ∈ l ∨ (a'.connections = [] ∧ ∃ i < count, a'.id = newIds i) := by
  intro a' ha'
  simp only [handleAddHexagon, List.mem_append, List.mem_map,
    List.mem_range] at ha'
  rcases ha' with ha' | ⟨i, hi, rfl⟩
  · exact Or.inl ha'
  · exact Or.inr ⟨rfl, i, hi, rfl⟩

theorem ids_add (l : List Hexagon) (count : ℕ) (color : String)
    (wx wy : ℝ) (newIds : ℕ → String) :
    idsOf (handleAddHexagon l count color wx wy newIds)
      = idsOf l ++ (List.range count).map newIds := by
  unfold idsOf handleAddHexagon
  rw [List.map_append, List.map_map]
  rfl

theorem boardInv_add (l : List Hexagon) (count : ℕ) (color : String)
    (wx wy : ℝ) (newIds : ℕ → String) (h : BoardInv l)
    (hinj : ∀ i < count, ∀ j < count, i ≠ j → newIds i ≠ newIds j)
    (hfresh : ∀ i < count, newIds i ∉ idsOf l) :
    BoardInv (handleAddHexagon l count color wx wy newIds) := by
  obtain ⟨hnd, hsym, hnsl, hcc⟩ := h
  have hnew_not_conn : ∀ a ∈ l, ∀ i < count, newIds i ∉ a.connections := by
    intro a ha i hi hmem
    exact hfresh i hi (hcc a ha _ hmem)
  refine ⟨?_, ?_, ?_, ?_⟩
  · rw [ids_add]
    refine List.Nodup.append hnd ?_ ?_
    · refine List.Nodup.map_on ?_ (List.nodup_range count)
      intro i hi j hj hij
      by_contra hne
      exact hinj i (List.mem_range.mp hi) j (List.mem_range.mp hj) hne hij
    · intro x hx hx2
      rw [List.mem_map] at hx2
      obtain ⟨i, hi, rfl⟩ := hx2
      exact hfresh i (List.mem_range.mp hi) hx
  · intro a' ha' b' hb'
    rcases add_member_spec l count color wx wy newIds a' ha'
      with ha2 | ⟨hac, i, hi, hai⟩
    · rcases add_member_spec l count color wx wy newIds b' hb'
        with hb2 | ⟨hbc, j, hj, hbj⟩
      · exact hsym a' ha2 b' hb2
      · constructor
        · intro hx
          rw [hbj] at hx
          exact absurd hx (hnew_not_conn a' ha2 j hj)
        · intro hx
          rw [hbc] at hx
          simp at hx
    · rcases add_member_spec l count color wx wy newIds b' hb'
        with hb2 | ⟨hbc, j, hj, hbj⟩
      · constructor
        · intro hx
          rw [hac] at hx
          simp at hx
        · intro hx
          rw [hai] at hx
          exact absurd hx (hnew_not_conn b' hb2 i hi)
      · rw [hac, hbc]
        simp
  · intro a' ha'
    rcases add_member_spec l count color wx wy newIds a' ha'
      with ha2 | ⟨hac, -⟩
    · exact hnsl a' ha2
    · rw [hac]
      simp
  · intro a' ha' c hc
    rcases add_member_spec l count color wx wy newIds a' ha'
      with ha2 | ⟨hac, -⟩
    · rw [ids_add, List.mem_append]
      exact Or.inl (hcc a' ha2 c hc)
    · rw [hac] at hc
      simp at hc

theorem set_getElem_id {α : Type _} :
    ∀ (l : List α) (i : ℕ) (h : i < l.length), l.set i (l.get ⟨i, h⟩) = l := by
  intro l
  induction l with
  | nil =>
      intro i h
      simp at h
  | cons a t ih =>
      intro i h
      cases i with
      | zero => rfl
      | succ n =>
          show a :: t.set n (t.get ⟨n, by simpa using h⟩) = a :: t
          rw [ih n (by simpa using h)]

theorem boardInv_snap (l : List Hexagon) (draggedId : String) (sd sd2 : ℝ)
    (h : BoardInv l) : BoardInv (snapHexagonToNeighbors l draggedId sd sd2) := by
  obtain ⟨hnd, hsym, hnsl, hcc⟩ := h
  cases hfi : l.findIdx? (fun hex => hex.id == draggedId) with
  | none =>
      rw [snap_eq_of_no_dragged l draggedId sd sd2 hfi]
      exact ⟨hnd, hsym, hnsl, hcc⟩
  | some di =>
      cases hfc : findClosest l (l.getD di default) draggedId sd2 with
      | none =>
          rw [snap_eq_of_no_closest l draggedId sd sd2 di hfi hfc]
          exact ⟨hnd, hsym, hnsl, hcc⟩
      | some cd =>
          obtain ⟨ci, d2⟩ := cd
          obtain ⟨hdi, hfidx⟩ := List.findIdx?_eq_some_iff_findIdx_eq.mp hfi
          have hdid : (l[di]).id = draggedId := by
            have hw : l.findIdx (fun hex => hex.id == draggedId) < l.length := by
              rw [hfidx]
              exact hdi
            have hp := @List.findIdx_getElem _
              (fun hex : Hexagon => hex.id == draggedId) l hw
            simp only [hfidx] at hp
            simpa using hp
          obtain ⟨hci, hcid, -, -, -⟩ := findClosest_some_spec hfc
          have hcid' : (l[ci]).id ≠ draggedId := hcid
          have hdc : di ≠ ci := by
            intro he
            subst he
            exact hcid' hdid
          have hdrg : l.getD di default = l[di] :=
            getD_default_eq_get l di hdi
          have hclg : l.getD ci default = l[ci] :=
            getD_default_eq_get l ci hci
          rw [snap_eq_of_closest l draggedId sd sd2 di ci d2 hfi hfc]
          rw [hdrg, hclg]
          set dragged := l[di] with hdr
          set closest := l[ci] with hcl
          set A : Hexagon :=
            { dragged with
              x := closest.x + Real.cos (atan2 (dragged.y - closest.y)
                    (dragged.x - closest.x)) * sd
              y := closest.y + Real.sin (atan2 (dragged.y - closest.y)
                    (dragged.x - closest.x)) * sd
              connections := insertUnique (jsDedup dragged.connections)
                closest.id } with hA
          set B : Hexagon :=
            { closest with
              connections := insertUnique (jsDedup closest.connections)
                dragged.id } with hB
          have hAid : A.id = dragged.id := rfl
          have hBid : B.id = closest.id := rfl
          have hAconn : ∀ y, y ∈ A.connections ↔
              y ∈ dragged.connections ∨ y = closest.id := by
            intro y
            show y ∈ insertUnique (jsDedup dragged.connections) closest.id ↔ _
            rw [mem_insertUnique, mem_jsDedup]
          have hBconn : ∀ y, y ∈ B.connections ↔
              y ∈ closest.connections ∨ y = dragged.id := by
            intro y
            show y ∈ insertUnique (jsDedup closest.connections) dragged.id ↔ _
            rw [mem_insertUnique, mem_jsDedup]
          have hid_ne : dragged.id ≠ closest.id := by
            rw [hdr, hcl, hdid]
            exact fun he => hcid' he.symm
          have hidne_of_ne : ∀ j k, ∀ hj : j < l.length, ∀ hk : k < l.length,
              j ≠ k → (l[j]).id ≠ (l[k]).id := by
            intro j k hj hk hjk he
            apply hjk
            have hgi := @List.Nodup.getElem_inj_iff _
              (List.map (fun hex : Hexagon => hex.id) l) hnd
              j (by simpa using hj) k (by simpa using hk)
            apply hgi.mp
            rw [List.getElem_map, List.getElem_map]
            exact he
          have hdmem : dragged ∈ l := by
            rw [hdr]
            exact l.getElem_mem hdi
          have hcmem : closest ∈ l := by
            rw [hcl]
            exact l.getElem_mem hci
          have hmem_precise : ∀ x, x ∈ (l.set di A).set ci B ↔
              (x = B ∨ x = A ∨
                ∃ j, ∃ hj : j < l.length, j ≠ di ∧ j ≠ ci ∧ l[j] = x) := by
            intro x
            constructor
            · intro hx
              rw [List.mem_iff_getElem] at hx
              obtain ⟨j, hj, hx⟩ := hx
              have hjl : j < l.length := by simpa using hj
              by_cases hjc : j = ci
              · subst hjc
                rw [List.getElem_set_self] at hx
                exact Or.inl hx.symm
              · rw [List.getElem_set_ne (fun he => hjc he.symm)] at hx
                by_cases hjd : j = di
                · subst hjd
                  rw [List.getElem_set_self] at hx
                  exact Or.inr (Or.inl hx.symm)
                · rw [List.getElem_set_ne (fun he => hjd he.symm)] at hx
                  exact Or.inr (Or.inr ⟨j, hjl, hjd, hjc, hx⟩)
            · intro hx
              rw [List.mem_iff_getElem]
              rcases hx with rfl | rfl | ⟨j, hj, hjd, hjc, hx⟩
              · refine ⟨ci, by simpa using hci, ?_⟩
                rw [List.getElem_set_self]
              · refine ⟨di, by simpa using hdi, ?_⟩
                rw [List.getElem_set_ne (fun he => hdc he.symm),
                  List.getElem_set_self]
              · refine ⟨j, by simpa using hj, ?_⟩
                rw [List.getElem_set_ne (fun he => hjc he.symm),
                  List.getElem_set_ne (fun he => hjd he.symm)]
                exact hx
          have hids : idsOf ((l.set di A).set ci B) = idsOf l := by
            unfold idsOf
            rw [List.map_set, List.map_set]
            have h1 : A.id
                = (List.map (·.id) l).get ⟨di, by simpa using hdi⟩ := by
              rw [List.get_eq_getElem, List.getElem_map]
            have h2 : B.id
                = (List.map (·.id) l).get ⟨ci, by simpa using hci⟩ := by
              rw [List.get_eq_getElem, List.getElem_map]
            rw [h1, h2, set_getElem_id, set_getElem_id]
          refine ⟨?_, ?_, ?_, ?_⟩
          · rw [hids]
            exact hnd
          · intro a ha b hb
            rcases (hmem_precise a).mp ha with rfl | rfl |
              ⟨j, hj, hjd, hjc, rfl⟩
            · rcases (hmem_precise b).mp hb with rfl | rfl |
                ⟨k, hk, hkd, hkc, rfl⟩
              · exact Iff.rfl
              · exact iff_of_true ((hBconn A.id).mpr (Or.inr hAid))
                  ((hAconn B.id).mpr (Or.inr hBid))
              · have hkdid : (l[k]).id ≠ dragged.id := by
                  rw [hdr]
                  exact hidne_of_ne k di hk hdi hkd
                constructor
                · intro hx
                  rcases (hBconn _).mp hx with hx | hx
                  · exact (hsym closest hcmem _ (l.getElem_mem hk)).mp hx
                  · exact absurd hx hkdid
                · intro hx
                  exact (hBconn _).mpr
                    (Or.inl ((hsym closest hcmem _ (l.getElem_mem hk)).mpr hx))
            · rcases (hmem_precise b).mp hb with rfl | rfl |
                ⟨k, hk, hkd, hkc, rfl⟩
              · exact iff_of_true ((hAconn B.id).mpr (Or.inr hBid))
                  ((hBconn A.id).mpr (Or.inr hAid))
              · exact Iff.rfl
              · have hkcid : (l[k]).id ≠ closest.id := by
                  rw [hcl]
                  exact hidne_of_ne k ci hk hci hkc
                constructor
                · intro hx
                  rcases (hAconn _).mp hx with hx | hx
                  · exact (hsym dragged hdmem _ (l.getElem_mem hk)).mp hx
                  · exact absurd hx hkcid
                · intro hx
                  exact (hAconn _).mpr
                    (Or.inl ((hsym dragged hdmem _ (l.getElem_mem hk)).mpr hx))
            · rcases (hmem_precise b).mp hb with rfl | rfl |
                ⟨k, hk, hkd, hkc, rfl⟩
              · have hjdid : (l[j]).id ≠ dragged.id := by
                  rw [hdr]
                  exact hidne_of_ne j di hj hdi hjd
                constructor
                · intro hx
                  exact (hBconn _).mpr
                    (Or.inl ((hsym closest hcmem _ (l.getElem_mem hj)).mpr hx))
                · intro hx
                  rcases (hBconn _).mp hx with hx | hx
                  · exact (hsym closest hcmem _ (l.getElem_mem hj)).mp hx
                  · exact absurd hx hjdid
              · have hjcid : (l[j]).id ≠ closest.id := by
                  rw [hcl]
                  exact hidne_of_ne j ci hj hci hjc
                constructor
                · intro hx
                  exact (hAconn _).mpr
                    (Or.inl ((hsym dragged hdmem _ (l.getElem_mem hj)).mpr hx))
                · intro hx
                  rcases (hAconn _).mp hx with hx | hx
                  · exact (hsym dragged hdmem _ (l.getElem_mem hj)).mp hx
                  · exact absurd hx hjcid
              · exact hsym _ (l.getElem_mem hj) _ (l.getElem_mem hk)
          · intro a ha
            rcases (hmem_precise a).mp ha with rfl | rfl |
              ⟨j, hj, hjd, hjc, rfl⟩
            · intro hx
              rcases (hBconn _).mp hx with hx | hx
              · exact hnsl closest hcmem hx
              · exact hid_ne hx.symm
            · intro hx
              rcases (hAconn _).mp hx with hx | hx
              · exact hnsl dragged hdmem hx
              · exact hid_ne hx
            · exact hnsl _ (l.getElem_mem hj)
          · intro a ha c hc
            rw [hids]
            rcases (hmem_precise a).mp ha with rfl | rfl |
              ⟨j, hj, hjd, hjc, rfl⟩
            · rcases (hBconn c).mp hc with hx | rfl
              · exact hcc closest hcmem c hx
              · exact List.mem_map_of_mem _ hdmem
            · rcases (hAconn c).mp hc with hx | rfl
              · exact hcc dragged hdmem c hx
              · exact List.mem_map_of_mem _ hcmem
            · exact hcc _ (l.getElem_mem hj) c hc

theorem reachable_boardInv : ∀ s, Reachable s → BoardInv s := by
  intro s h
  induction h with
  | empty =>
      refine ⟨by simp [idsOf], ?_, ?_, ?_⟩ <;>
        · intro a ha
          exact absurd ha (List.not_mem_nil a)
  | snap s d sd sd2 _ ih => exact boardInv_snap s d sd sd2 ih
  | flick s i _ ih => exact boardInv_clear s i ih
  | disconnect s sel _ ih => exact boardInv_disconnect sel s ih
  | delete s sel _ ih => exact boardInv_delete s sel ih
  | dup s sel newIds _ h1 h2 ih => exact boardInv_dup s sel newIds ih h1 h2
  | add s count color wx wy newIds _ h1 h2 ih =>
      exact boardInv_add s count color wx wy newIds ih h1 h2

/-- C1. Connection symmetry invariant: every board state reachable from the
fresh board by the structural operations — snap on release, flick-detach,
disconnect-selected, delete-selected, duplicate-selected, add-hexagon, with
fresh distinct uuids — has symmetric connections (`B.id ∈ A.connections ↔
A.id ∈ B.connections` for all hexagons `A`, `B` on the board) and no
self-loops. -/
theorem connection_symmetry (s : List Hexagon) (h : Reachable s) :
    ConnSymm s ∧ NoSelfLoop s :=
  ⟨(reachable_boardInv s h).2.1, (reachable_boardInv s h).2.2.1⟩

/-- Witness for `connection_symmetry`: a board built by adding two
hexagons, snapping one to the other, and flick-detaching it again. -/
theorem connection_symmetry_witness :
    ConnSymm (clearConnectionsFor
      (snapHexagonToNeighbors
        (handleAddHexagon [] 2 "#f23f3f" 0 0
          (fun i => if i = 0 then "a" else "b")) "a" 110 (110 * 110))
      "a") ∧
    NoSelfLoop (clearConnectionsFor
      (snapHexagonToNeighbors
        (handleAddHexagon [] 2 "#f23f3f" 0 0
          (fun i => if i = 0 then "a" else "b")) "a" 110 (110 * 110))
      "a") :=
  connection_symmetry _
    (Reachable.flick _ "a"
      (Reachable.snap _ "a" 110 (110 * 110)
        (Reachable.add [] 2 "#f23f3f" 0 0 _ Reachable.empty
          (by
            intro i hi j hj hij
            interval_cases i <;> interval_cases j <;> simp_all)
          (by
            intro i hi
            simp [idsOf]))))

/-! ## Hexagon number labels (C8)

`handleAddHexagon` numbers new hexagons `maxNumber + 1 + i`, where
`maxNumber` is the maximum number currently on the board, so additions
alone keep numbers distinct; but `handleDuplicateSelected` spreads `...hex`
into the clone, copying `number` verbatim, and after a deletion the maximum
drops back, so a previously used number can be assigned again. -/

def numbersOf (hexagons : List Hexagon) : List ℤ :=
  hexagons.map (·.number)

theorem le_maxHexNumber : ∀ (l : List Hexagon), ∀ a ∈ l,
    a.number ≤ maxHexNumber l := by
  have hstep : ∀ (l : List Hexagon) (m : ℤ),
      m ≤ l.foldl (fun m hex => max m hex.number) m ∧
      ∀ a ∈ l, a.number ≤ l.foldl (fun m hex => max m hex.number) m := by
    intro l
    induction l with
    | nil =>
        intro m
        exact ⟨le_refl m, by intro a ha; exact absurd ha (List.not_mem_nil a)⟩
    | cons b t ih =>
        intro m
        rw [List.foldl_cons]
        refine ⟨le_trans (le_max_left m b.number) (ih (max m b.number)).1, ?_⟩
        intro a ha
        rcases List.mem_cons.mp ha with rfl | ha
        · exact le_trans (le_max_right m a.number) (ih (max m a.number)).1
        · exact (ih (max m b.number)).2 a ha
  intro l a ha
  exact (hstep l 0).2 a ha

theorem numbers_add (l : List Hexagon) (count : ℕ) (color : String)
    (wx wy : ℝ) (newIds : ℕ → String) :
    numbersOf (handleAddHexagon l count color wx wy newIds)
      = numbersOf l
        ++ (List.range count).map (fun (i : ℕ) => maxHexNumber l + 1 + (i : ℤ)) := by
  unfold numbersOf handleAddHexagon
  rw [List.map_append, List.map_map]
  rfl

theorem numbers_clear (l : List Hexagon) (i : String) :
    numbersOf (clearConnectionsFor l i) = numbersOf l := by
  unfold numbersOf clearConnectionsFor
  rw [List.map_map]
  apply List.map_congr_left
  intro a _
  by_cases h1 : a.id = i
  · simp [h1]
  · by_cases h2 : i ∈ a.connections <;> simp [h1, h2]

theorem numbers_disconnect (sel : List String) :
    ∀ (l : List Hexagon),
      numbersOf (handleDisconnectSelected l sel) = numbersOf l := by
  unfold handleDisconnectSelected
  induction sel with
  | nil =>
      intro l
      rfl
  | cons s t ih =>
      intro l
      rw [List.foldl_cons, ih, numbers_clear]

theorem numbers_delete_sublist (l : List Hexagon) (sel : List String) :
    (numbersOf (handleDeleteSelected l sel)).Sublist (numbersOf l) := by
  unfold numbersOf handleDeleteSelected
  rw [List.map_map]
  have h1 : (List.map ((fun h => h.number) ∘ fun hex =>
      { hex with connections := hex.connections.filter (· ∉ sel) })
      (l.filter (fun hex => hex.id ∉ sel)))
      = List.map (·.number) (l.filter (fun hex => hex.id ∉ sel)) := by
    apply List.map_congr_left
    intro a _
    rfl
  rw [h1]
  exact (List.filter_sublist l).map _

theorem numbers_snap (l : List Hexagon) (draggedId : String) (sd sd2 : ℝ) :
    numbersOf (snapHexagonToNeighbors l draggedId sd sd2) = numbersOf l := by
  cases hfi : l.findIdx? (fun hex => hex.id == draggedId) with
  | none => rw [snap_eq_of_no_dragged l draggedId sd sd2 hfi]
  | some di =>
      cases hfc : findClosest l (l.getD di default) draggedId sd2 with
      | none => rw [snap_eq_of_no_closest l draggedId sd sd2 di hfi hfc]
      | some cd =>
          obtain ⟨ci, d2⟩ := cd
          obtain ⟨hdi, -⟩ := List.findIdx?_eq_some_iff_findIdx_eq.mp hfi
          obtain ⟨hci, -, -, -, -⟩ := findClosest_some_spec hfc
          rw [snap_eq_of_closest l draggedId sd sd2 di ci d2 hfi hfc]
          unfold numbersOf
          rw [List.map_set, List.map_set]
          have h1 : ((l.getD di default).number)
              = (List.map (·.number) l).get ⟨di, by simpa using hdi⟩ := by
            rw [List.get_eq_getElem, List.getElem_map,
              getD_default_eq_get l di hdi]
            rfl
          have h2 : ((l.getD ci default).number)
              = (List.map (·.number) l).get ⟨ci, by simpa using hci⟩ := by
            rw [List.get_eq_getElem, List.getElem_map,
              getD_default_eq_get l ci hci]
            rfl
          show ((List.map (·.number) l).set di
              ((l.getD di default).number)).set ci
              ((l.getD ci default).number) = List.map (·.number) l
          rw [h1, h2, set_getElem_id, set_getElem_id]

theorem numbers_dup (l : List Hexagon) (sel : List String)
    (newIds : List String) :
    numbersOf (handleDuplicateSelected l sel newIds)
      = numbersOf l
        ++ ((l.filter (fun hex => hex.id ∈ sel)).zip newIds).map
            (fun p => p.1.number) := by
  unfold numbersOf handleDuplicateSelected
  rw [List.map_append, List.map_map]
  rfl

theorem maxHexNumber_eq (l : List Hexagon) :
    maxHexNumber l = (numbersOf l).foldl max 0 := by
  unfold maxHexNumber numbersOf
  rw [List.foldl_map]

/-- Numbers handed out by `handleAddHexagon` (the appended suffix of the
result) are strictly greater than every number already on the board. -/
theorem add_numbers_gt (l : List Hexagon) (count : ℕ) (color : String)
    (wx wy : ℝ) (newIds : ℕ → String) :
    ∀ b ∈ (handleAddHexagon l count color wx wy newIds).drop l.length,
      ∀ a ∈ l, a.number < b.number := by
  intro b hb a ha
  unfold handleAddHexagon at hb
  rw [List.drop_left] at hb
  simp only [List.mem_map, List.mem_range] at hb
  obtain ⟨i, hi, rfl⟩ := hb
  have hle := le_maxHexNumber l a ha
  show a.number < maxHexNumber l + 1 + (i : ℤ)
  omega

/-- Board states reachable by the structural operations other than
duplicate-selected (which clones `number` verbatim). -/
inductive ReachableND : List Hexagon → Prop where
  | empty : ReachableND []
  | snap (s : List Hexagon) (draggedId : String) (sd sd2 : ℝ) :
      ReachableND s → ReachableND (snapHexagonToNeighbors s draggedId sd sd2)
  | flick (s : List Hexagon) (id : String) :
      ReachableND s → ReachableND (clearConnectionsFor s id)
  | disconnect (s : List Hexagon) (sel : List String) :
      ReachableND s → ReachableND (handleDisconnectSelected s sel)
  | delete (s : List Hexagon) (sel : List String) :
      ReachableND s → ReachableND (handleDeleteSelected s sel)
  | add (s : List Hexagon) (count : ℕ) (color : String) (wx wy : ℝ)
      (newIds : ℕ → String) :
      ReachableND s → ReachableND (handleAddHexagon s count color wx wy newIds)

theorem reachableND_numbers_nodup :
    ∀ s, ReachableND s → (numbersOf s).Nodup := by
  intro s h
  induction h with
  | empty => simp [numbersOf]
  | snap s d sd sd2 _ ih => rw [numbers_snap]; exact ih
  | flick s i _ ih => rw [numbers_clear]; exact ih
  | disconnect s sel _ ih => rw [numbers_disconnect]; exact ih
  | delete s sel _ ih => exact ih.sublist (numbers_delete_sublist s sel)
  | add s count color wx wy newIds _ ih =>
      rw [numbers_add, List.nodup_append]
      refine ⟨ih, ?_, ?_⟩
      · refine List.Nodup.map ?_ (List.nodup_range count)
        intro i j hij
        simp only [add_right_inj, Nat.cast_inj] at hij
        exact hij
      · intro n hn hn2
        simp only [List.mem_map, List.mem_range] at hn2
        obtain ⟨i, hi, rfl⟩ := hn2
        unfold numbersOf at hn
        rw [List.mem_map] at hn
        obtain ⟨a, ha, hna⟩ := hn
        have hle := le_maxHexNumber s a ha
        omega

/-! Concrete states for the counterexamples: add two hexagons ("a" numbered
1, "b" numbered 2), then either duplicate "a" or delete "b" and add again. -/

def cxIds (i : ℕ) : String := if i = 0 then "a" else "b"

noncomputable def cxAdd2 : List Hexagon :=
  handleAddHexagon [] 2 "#f23f3f" 0 0 cxIds

noncomputable def cxDup : List Hexagon :=
  handleDuplicateSelected cxAdd2 ["a"] ["c"]

noncomputable def cxDel : List Hexagon :=
  handleDeleteSelected cxAdd2 ["b"]

noncomputable def cxReuse : List Hexagon :=
  handleAddHexagon cxDel 1 "#f23f3f" 0 0 (fun _ => "d")

theorem numbersOf_cxAdd2 : numbersOf cxAdd2 = [1, 2] := by
  rw [cxAdd2, numbers_add]
  norm_num [numbersOf, maxHexNumber, List.range_succ]

theorem idsOf_cxAdd2 : idsOf cxAdd2 = ["a", "b"] := by
  simp [cxAdd2, handleAddHexagon, idsOf, List.range_succ, cxIds]

theorem numbersOf_cxDup : numbersOf cxDup = [1, 2, 1] := by
  rw [cxDup, numbers_dup, numbersOf_cxAdd2]
  simp [cxAdd2, handleAddHexagon, List.range_succ, cxIds, maxHexNumber]

theorem numbersOf_cxDel : numbersOf cxDel = [1] := by
  simp [cxDel, handleDeleteSelected, cxAdd2, handleAddHexagon, numbersOf,
    List.range_succ, cxIds, maxHexNumber]

theorem idsOf_cxDel : idsOf cxDel = ["a"] := by
  simp [cxDel, handleDeleteSelected, cxAdd2, handleAddHexagon, idsOf,
    List.range_succ, cxIds]

theorem numbersOf_cxReuse : numbersOf cxReuse = [1, 2] := by
  rw [cxReuse, numbers_add, numbersOf_cxDel, maxHexNumber_eq, numbersOf_cxDel]
  norm_num [List.range_succ]

theorem reachable_cxAdd2 : Reachable cxAdd2 := by
  rw [cxAdd2]
  refine Reachable.add [] 2 "#f23f3f" 0 0 cxIds Reachable.empty ?_ ?_
  · intro i hi j hj hij
    interval_cases i <;> interval_cases j <;> simp_all [cxIds]
  · intro i hi
    simp [idsOf]

theorem reachable_cxDup : Reachable cxDup := by
  rw [cxDup]
  refine Reachable.dup cxAdd2 ["a"] ["c"] reachable_cxAdd2 (by simp) ?_
  intro nid hnid
  rw [idsOf_cxAdd2]
  simp at hnid
  simp [hnid]

theorem reachable_cxReuse : Reachable cxReuse := by
  rw [cxReuse]
  refine Reachable.add cxDel 1 "#f23f3f" 0 0 (fun _ => "d")
    (Reachable.delete cxAdd2 ["b"] reachable_cxAdd2) ?_ ?_
  · intro i hi j hj hij
    omega
  · intro i hi
    rw [idsOf_cxDel]
    simp

theorem reachableND_cxReuse : ReachableND cxReuse :=
  ReachableND.add cxDel 1 "#f23f3f" 0 0 (fun _ => "d")
    (ReachableND.delete cxAdd2 ["b"]
      (ReachableND.add [] 2 "#f23f3f" 0 0 cxIds ReachableND.empty))

/-- C8 as stated is false on two counts. Duplicate-selected spreads `...hex`
into the clone, copying its `number` verbatim: the reachable state `cxDup`
(add two hexagons, duplicate the first) carries the number 1 twice. And a
number is reused after a deletion: on `cxAdd2` the number 2 is assigned,
deleting that hexagon (`cxDel`) removes it, and the next addition
(`cxReuse`) computes `maxNumber + 1 = 2` and assigns 2 again. -/
theorem number_uniqueness_cex :
    (Reachable cxDup ∧ ¬ (numbersOf cxDup).Nodup) ∧
    (Reachable cxReuse ∧ (2 : ℤ) ∈ numbersOf cxAdd2 ∧
      (2 : ℤ) ∉ numbersOf cxDel ∧ (2 : ℤ) ∈ numbersOf cxReuse) := by
  refine ⟨⟨reachable_cxDup, ?_⟩, reachable_cxReuse, ?_, ?_, ?_⟩
  · rw [numbersOf_cxDup]
    decide
  · rw [numbersOf_cxAdd2]
    decide
  · rw [numbersOf_cxDel]
    decide
  · rw [numbersOf_cxReuse]
    decide

/-- C8 (amended): numbers grow monotonically across additions — every
hexagon appended by `handleAddHexagon` receives a number strictly greater
than every number already on the board (`maxNumber + 1 + i`) — and on every
board reachable without duplicate-selected the numbers are pairwise
distinct. Duplicate-selected copies the clone's `number` verbatim, and
after a deletion the maximum drops back, so a deleted hexagon's number can
be assigned again by a later addition. -/
theorem number_uniqueness (s : List Hexagon) (h : ReachableND s) :
    (numbersOf s).Nodup ∧
    ∀ (count : ℕ) (color : String) (wx wy : ℝ) (newIds : ℕ → String),
      ∀ b ∈ (handleAddHexagon s count color wx wy newIds).drop s.length,
        ∀ a ∈ s, a.number < b.number :=
  ⟨reachableND_numbers_nodup s h,
   fun count color wx wy newIds => add_numbers_gt s count color wx wy newIds⟩

/-- The amended C8 instantiated on the concrete reachable board `cxReuse`
(add two, delete the second, add one more). -/
theorem number_uniqueness_witness :
    ReachableND cxReuse ∧ (numbersOf cxReuse).Nodup :=
  ⟨reachableND_cxReuse, (number_uniqueness cxReuse reachableND_cxReuse).1⟩
